import Mathlib

/-!
Shallow embedding of the QuickFind terminal file browser (src/src/main.rs).

The program's core is a state machine: an `AppState` holding the focused
directory, the sorted entry list, the selection index, the active popup
mode, the popup input buffer and an exit flag; key events drive transitions
that may read or mutate the filesystem.

The filesystem is modelled as a flat finite map from paths (lists of
segments) to entry kinds (file with content, or directory); `fs::read_dir`,
`fs::write`, `fs::create_dir`, `fs::remove_file`, `fs::remove_dir_all` and
`fs::rename` become pure functions returning `Except` on the error paths
the program can hit.  `PathBuf::join`/`push` with a single-component name
is modelled as appending one segment, and `PathBuf::pop` as `List.dropLast`
(a no-op at the root `[]`, matching `pop` at `/`).  Rust's fallible
operations (`?`) become `Except String`; an `error` result models the fatal
propagation described in the source.
-/

namespace QuickFind

/-- A filesystem path, as the list of its segments from the root. -/
abbrev Path := List String

/-- `underPath anc q` holds when `q` is `anc` itself or a descendant of
`anc` (i.e. `anc` is a path-segment prefix of `q`). -/
def underPath (anc q : Path) : Prop := q.take anc.length = anc

instance (anc q : Path) : Decidable (underPath anc q) := by
  unfold underPath; infer_instance

deriving instance DecidableEq for Except

/-- The kind of a directory entry: a regular file with its contents, or a
directory. -/
inductive EntryKind where
  | file (content : String)
  | dir
deriving DecidableEq

/-- `true` exactly on the `file` kind. -/
def EntryKind.isFileKind : EntryKind → Bool
  | .file _ => true
  | .dir => false

/-- The filesystem model: a flat association list from absolute paths to
entry kinds.  List order models the unspecified `read_dir` iteration
order. -/
structure Fs where
  nodes : List (Path × EntryKind)
deriving DecidableEq

/-- The set of paths present in the filesystem. -/
def Fs.keys (fs : Fs) : List Path := fs.nodes.map Prod.fst

/-- `Path::exists()`: some entry lives at `p`. -/
def Fs.existsPath (fs : Fs) (p : Path) : Prop := p ∈ fs.keys

instance (fs : Fs) (p : Path) : Decidable (fs.existsPath p) := by
  unfold Fs.existsPath; infer_instance

/-- `Path::is_dir()`: a directory lives at `p` (false on missing paths). -/
def Fs.isDir (fs : Fs) (p : Path) : Prop := (p, EntryKind.dir) ∈ fs.nodes

instance (fs : Fs) (p : Path) : Decidable (fs.isDir p) := by
  unfold Fs.isDir; infer_instance

/-- A regular file lives at `p`. -/
def Fs.isFile (fs : Fs) (p : Path) : Prop :=
  ∃ e ∈ fs.nodes, e.1 = p ∧ e.2.isFileKind = true

instance (fs : Fs) (p : Path) : Decidable (fs.isFile p) := by
  unfold Fs.isFile; infer_instance

/-- Lexicographic comparison of character lists: the element order that
`Vec<String>::sort` uses, transported to the model. -/
def charsLe : List Char → List Char → Bool
  | [], _ => true
  | _ :: _, [] => false
  | a :: as, b :: bs =>
      if a < b then true
      else if b < a then false
      else charsLe as bs

/-- Lexicographic order on strings via their character lists (shown below
to agree with `≤` on `String`). -/
def strLe (a b : String) : Bool := charsLe a.data b.data

instance : DecidableRel (fun a b : String => strLe a b = true) :=
  fun a b => inferInstanceAs (Decidable (strLe a b = true))

/-- `str::to_lowercase()`, characterwise on the data (agrees with the
Rust function on ASCII input). -/
def strToLower (s : String) : String := ⟨s.data.map Char.toLower⟩

/-- `str::trim()`: strip leading and trailing whitespace, on the
character list. -/
def strTrim (s : String) : String :=
  ⟨((s.data.dropWhile Char.isWhitespace).reverse.dropWhile Char.isWhitespace).reverse⟩

/-- `String::push(c)`. -/
def strPush (s : String) (c : Char) : String := ⟨s.data ++ [c]⟩

/-- The buffer effect of `String::pop()`: drop the last character. -/
def strPop (s : String) : String := ⟨s.data.dropLast⟩

/-- Extracts the child name when `q` is an immediate child of `p`. -/
def extractChild (p q : Path) : Option String :=
  if q.length = p.length + 1 ∧ underPath p q then (q.drop p.length).head? else none

/-- The names of the immediate children of `p` (unsorted, in `read_dir`
order). -/
def Fs.childNames (fs : Fs) (p : Path) : List String :=
  fs.keys.filterMap (extractChild p)

/-- `read_entries` (main.rs:382-391): list the focused directory, keep the
names, sort.  Fails when the path cannot be read as a directory. -/
def read_entries (fs : Fs) (p : Path) : Except String (List String) :=
  if fs.isDir p then .ok (List.insertionSort (fun a b => strLe a b = true) (fs.childNames p))
  else .error "read_entries: cannot read directory"

/-- `fs::write(path, content)`: truncating write.  Errors on directories
and when the parent is missing. -/
def Fs.write (fs : Fs) (p : Path) (content : String) : Except String Fs :=
  if fs.isDir p then .error "write: is a directory"
  else if fs.existsPath p then
    .ok ⟨fs.nodes.map (fun e => if e.1 = p then (p, EntryKind.file content) else e)⟩
  else if fs.isDir p.dropLast ∧ p ≠ [] then .ok ⟨(p, EntryKind.file content) :: fs.nodes⟩
  else .error "write: no such parent"

/-- `fs::create_dir(path)`: errors when the path exists or the parent is
missing. -/
def Fs.create_dir (fs : Fs) (p : Path) : Except String Fs :=
  if fs.existsPath p then .error "create_dir: already exists"
  else if fs.isDir p.dropLast ∧ p ≠ [] then .ok ⟨(p, EntryKind.dir) :: fs.nodes⟩
  else .error "create_dir: no such parent"

/-- `fs::remove_file(path)`: removes a single regular file; errors on
directories and missing paths. -/
def Fs.remove_file (fs : Fs) (p : Path) : Except String Fs :=
  if fs.isFile p then .ok ⟨fs.nodes.filter (fun e => decide (e.1 ≠ p))⟩
  else .error "remove_file: not a file"

/-- `fs::remove_dir_all(path)`: removes a directory and everything under
it; errors when `p` is not a directory. -/
def Fs.remove_dir_all (fs : Fs) (p : Path) : Except String Fs :=
  if fs.isDir p then .ok ⟨fs.nodes.filter (fun e => decide (¬ underPath p e.1))⟩
  else .error "remove_dir_all: not a directory"

/-- Relocation of one entry under a rename: entries under `old` move under
`new`, all others stay put. -/
def renMap (old new : Path) (e : Path × EntryKind) : Path × EntryKind :=
  if underPath old e.1 then (new ++ e.1.drop old.length, e.2) else e

/-- The same relocation on bare paths. -/
def renKey (old new : Path) (q : Path) : Path :=
  if underPath old q then new ++ q.drop old.length else q

/-- `fs::rename(old, new)`: moves the tree rooted at `old` to `new`.
Modelled in the regime the program exercises (source exists, destination
absent, destination not inside the source); other regimes error. -/
def Fs.rename (fs : Fs) (old new : Path) : Except String Fs :=
  if fs.existsPath old ∧ ¬ fs.existsPath new ∧ ¬ underPath old new then
    .ok ⟨fs.nodes.map (renMap old new)⟩
  else .error "rename: unsupported"

/-- `PopupMode` (main.rs:16-24). -/
inductive PopupMode where
  | none
  | createFile
  | createDir
  | delete
  | rename
deriving DecidableEq

/-- `AppState` (main.rs:26-37).  `list_state` is render-only glue (it
mirrors `selected_index`) and is not modelled. -/
structure AppState where
  focus_dir : Path
  entries : List String
  selected_index : Nat
  popup_mode : PopupMode
  input_buffer : String
  break_now : Bool
deriving DecidableEq

/-- The key codes the program reacts to. -/
inductive KeyCode where
  | enter
  | esc
  | left
  | right
  | up
  | down
  | backspace
  | char (c : Char)
deriving DecidableEq

/-- A key event: code plus whether the shift modifier is held. -/
structure KeyEvent where
  code : KeyCode
  shift : Bool
deriving DecidableEq

/-- `AppState::new` (main.rs:40-56): start in the process's current
directory with the selection at 0 and no popup. -/
def AppState.new (fs : Fs) (cwd : Path) : Except String AppState := do
  let entries ← read_entries fs cwd
  .ok { focus_dir := cwd, entries := entries, selected_index := 0,
        popup_mode := PopupMode.none, input_buffer := "", break_now := false }

/-- `AppState::refresh_entries` (main.rs:58-65): re-list the focused
directory; clamp a now-invalid selection to the last index when the new
list is non-empty. -/
def AppState.refresh_entries (fs : Fs) (s : AppState) : Except String AppState := do
  let es ← read_entries fs s.focus_dir
  let idx := if s.selected_index ≥ es.length ∧ es ≠ [] then es.length - 1
             else s.selected_index
  .ok { s with entries := es, selected_index := idx }

/-- `AppState::get_selected_path` (main.rs:67-70). -/
def AppState.get_selected_path (s : AppState) : Option Path :=
  (s.entries[s.selected_index]?).map (fun e => s.focus_dir ++ [e])

/-- `handle_main_input` (main.rs:179-239): navigation-mode key handling.
Navigation never mutates the filesystem, but `Left`/`Right` re-read it. -/
def handle_main_input (fs : Fs) (s : AppState) (code : KeyCode) (shift : Bool) :
    Except String AppState :=
  match code with
  | .enter => .ok { s with break_now := true }
  | .esc => .ok { s with break_now := true }
  | .right =>
      match s.entries[s.selected_index]? with
      | some entry =>
          if fs.isDir (s.focus_dir ++ [entry]) then do
            let s1 ← AppState.refresh_entries fs { s with focus_dir := s.focus_dir ++ [entry] }
            .ok { s1 with selected_index := 0 }
          else .ok s
      | none => .ok s
  | .left => do
      let s1 ← AppState.refresh_entries fs { s with focus_dir := s.focus_dir.dropLast }
      .ok { s1 with selected_index := 0 }
  | .up =>
      .ok (if s.selected_index > 0 then { s with selected_index := s.selected_index - 1 } else s)
  | .down =>
      .ok (if s.selected_index + 1 < s.entries.length then
            { s with selected_index := s.selected_index + 1 }
          else s)
  | .char c =>
      if c = 'n' ∨ c = 'N' then
        .ok { s with popup_mode := if shift then PopupMode.createDir else PopupMode.createFile,
                     input_buffer := "" }
      else if c = 'd' ∨ c = 'D' then
        .ok (if s.entries ≠ [] then { s with popup_mode := PopupMode.delete, input_buffer := "" }
             else s)
      else if c = 'r' ∨ c = 'R' then
        .ok (if s.entries ≠ [] then
              { s with popup_mode := PopupMode.rename,
                       input_buffer := (s.entries[s.selected_index]?).getD s.input_buffer }
             else s)
      else .ok s
  | .backspace => .ok s

/-- The filesystem effect of the active popup's action: the `match` block
of `execute_popup_action` (main.rs:262-303). -/
def popup_fs_action (fs : Fs) (s : AppState) : Except String Fs :=
  match s.popup_mode with
    | PopupMode.createFile =>
        if ¬ (strTrim s.input_buffer = "") then
          if ¬ fs.existsPath (s.focus_dir ++ [s.input_buffer]) then
            fs.write (s.focus_dir ++ [s.input_buffer]) ""
          else .ok fs
        else .ok fs
    | PopupMode.createDir =>
        if ¬ (strTrim s.input_buffer = "") then
          if ¬ fs.existsPath (s.focus_dir ++ [s.input_buffer]) then
            fs.create_dir (s.focus_dir ++ [s.input_buffer])
          else .ok fs
        else .ok fs
    | PopupMode.delete =>
        if strToLower s.input_buffer = "y" ∨ strToLower s.input_buffer = "yes" then
          match s.entries[s.selected_index]? with
          | some entry =>
              if fs.isDir (s.focus_dir ++ [entry]) then
                fs.remove_dir_all (s.focus_dir ++ [entry])
              else fs.remove_file (s.focus_dir ++ [entry])
          | none => .ok fs
        else .ok fs
    | PopupMode.rename =>
        if ¬ (strTrim s.input_buffer = "") then
          match s.entries[s.selected_index]? with
          | some old_name =>
              if s.focus_dir ++ [old_name] ≠ s.focus_dir ++ [s.input_buffer] ∧
                  ¬ fs.existsPath (s.focus_dir ++ [s.input_buffer]) then
                fs.rename (s.focus_dir ++ [old_name]) (s.focus_dir ++ [s.input_buffer])
              else .ok fs
          | none => .ok fs
        else .ok fs
    | PopupMode.none => .ok fs

/-- `execute_popup_action` (main.rs:261-309): run the active popup's
action, then unconditionally close the popup, clear the buffer and
refresh the entries. -/
def execute_popup_action (fs : Fs) (s : AppState) : Except String (Fs × AppState) := do
  let fs' ← popup_fs_action fs s
  let s1 ← AppState.refresh_entries fs'
            { s with popup_mode := PopupMode.none, input_buffer := "" }
  .ok (fs', s1)

/-- `handle_popup_input` (main.rs:241-259): key handling while a popup is
active. -/
def handle_popup_input (fs : Fs) (s : AppState) (code : KeyCode) :
    Except String (Fs × AppState) :=
  match code with
  | .esc => .ok (fs, { s with popup_mode := PopupMode.none, input_buffer := "" })
  | .enter => execute_popup_action fs s
  | .backspace => .ok (fs, { s with input_buffer := strPop s.input_buffer })
  | .char c => .ok (fs, { s with input_buffer := strPush s.input_buffer c })
  | _ => .ok (fs, s)

/-- `handle_input` (main.rs:170-177): the InputRouter. -/
def handle_input (fs : Fs) (s : AppState) (ev : KeyEvent) : Except String (Fs × AppState) :=
  if s.popup_mode ≠ PopupMode.none then handle_popup_input fs s ev.code
  else (handle_main_input fs s ev.code ev.shift).map (fun s' => (fs, s'))

/-- The main loop (main.rs:84-154), restricted to its state transitions:
`break_now` is checked at the top of each iteration, and each iteration
routes at most one key event. -/
def run (fs : Fs) (s : AppState) : List KeyEvent → Except String (Fs × AppState)
  | [] => .ok (fs, s)
  | ev :: evs =>
      if s.break_now then .ok (fs, s)
      else
        match handle_input fs s ev with
        | .ok (fs', s') => run fs' s' evs
        | .error msg => .error msg

/-- The display form of a path, `/`-separated from the root. -/
def pathDisplay (p : Path) : String := "/" ++ String.intercalate "/" p

/-- A single-quote character (written via its code point). -/
def squote : String := String.singleton (Char.ofNat 39)

/-- The shell command emitted on normal exit (main.rs:162-165): it embeds
the final focused directory in a `cd` line handed to the enclosing
shell session via the clipboard. -/
def exit_command (p : Path) : String :=
  "echo cd " ++ squote ++ "\"" ++ pathDisplay p ++ "\"" ++ squote ++ " | clip.exe"

/-- Well-formedness of the filesystem model: the root exists and is a
directory, paths are unique, and every non-root entry's parent is a
directory in the filesystem. -/
def Fs.WF (fs : Fs) : Prop :=
  fs.isDir [] ∧ fs.keys.Nodup ∧ ∀ e ∈ fs.nodes, e.1 ≠ [] → fs.isDir e.1.dropLast

instance (fs : Fs) : Decidable fs.WF := by
  unfold Fs.WF
  infer_instance

/-- The reachable-state invariant tying an `AppState` to the filesystem:
the filesystem is well-formed, the focused directory exists as a
directory, `entries` is exactly its current listing, and the selection
index is in bounds (0 when the listing is empty). -/
def GoodState (fs : Fs) (s : AppState) : Prop :=
  fs.WF ∧ fs.isDir s.focus_dir ∧ read_entries fs s.focus_dir = .ok s.entries ∧
    (s.entries ≠ [] → s.selected_index < s.entries.length) ∧
    (s.entries = [] → s.selected_index = 0)

instance (fs : Fs) (s : AppState) : Decidable (GoodState fs s) := by
  unfold GoodState
  infer_instance

/-- A small concrete filesystem used to evaluate the theorems on closed
inputs: a root with a file `a.txt` and a subdirectory `b` holding
`c.txt`. -/
def fsW : Fs := Fs.mk [([], EntryKind.dir), (["a.txt"], EntryKind.file "hi"),
  (["b"], EntryKind.dir), (["b", "c.txt"], EntryKind.file "")]

/-- A concrete app state over `fsW`, focused at the root. -/
def sW : AppState :=
  { focus_dir := [], entries := ["a.txt", "b"], selected_index := 0,
    popup_mode := PopupMode.none, input_buffer := "", break_now := false }

/-! ### Path lemmas -/

theorem underPath_refl (p : Path) : underPath p p := List.take_length p

theorem underPath_append (p t : Path) : underPath p (p ++ t) := List.take_left p t

theorem underPath.eq_append {p q : Path} (h : underPath p q) :
    q = p ++ q.drop p.length := by
  conv_lhs => rw [← List.take_append_drop p.length q]
  rw [h]

theorem underPath_iff_exists {p q : Path} : underPath p q ↔ ∃ t, q = p ++ t := by
  constructor
  · intro h
    exact ⟨q.drop p.length, h.eq_append⟩
  · rintro ⟨t, rfl⟩
    exact underPath_append p t

theorem underPath.length_le {p q : Path} (h : underPath p q) : p.length ≤ q.length := by
  rcases underPath_iff_exists.1 h with ⟨t, rfl⟩
  simp

theorem underPath.eq_of_length_le {p q : Path} (h : underPath p q)
    (hl : q.length ≤ p.length) : q = p := by
  rcases underPath_iff_exists.1 h with ⟨t, rfl⟩
  have : t = [] := by
    rw [List.length_append] at hl
    exact List.eq_nil_of_length_eq_zero (by omega)
  simp [this]

theorem not_underPath_of_length_lt {p q : Path} (hl : q.length < p.length) :
    ¬ underPath p q :=
  fun h => absurd h.length_le (by omega)

theorem underPath_trans {a b c : Path} (h1 : underPath a b) (h2 : underPath b c) :
    underPath a c := by
  rcases underPath_iff_exists.1 h1 with ⟨t1, rfl⟩
  rcases underPath_iff_exists.1 h2 with ⟨t2, rfl⟩
  rw [List.append_assoc]
  exact underPath_append _ _

theorem underPath.dropLast_right {p q : Path} (h : underPath p q)
    (hl : p.length < q.length) : underPath p q.dropLast := by
  rcases underPath_iff_exists.1 h with ⟨t, rfl⟩
  have ht : t ≠ [] := by
    intro h0
    rw [h0] at hl
    simp at hl
  rw [List.dropLast_append_of_ne_nil p ht]
  exact underPath_append _ _

theorem underPath_of_dropLast {p q : Path} (h : underPath p q.dropLast) (hq : q ≠ []) :
    underPath p q := by
  have hsplit : q.dropLast ++ [q.getLast hq] = q := List.dropLast_append_getLast hq
  rcases underPath_iff_exists.1 h with ⟨t, ht⟩
  rw [← hsplit, ht, List.append_assoc]
  exact underPath_append _ _

theorem underPath_child_iff {d : Path} {a b : String} :
    underPath (d ++ [a]) (d ++ [b]) ↔ a = b := by
  constructor
  · intro h
    have := h.eq_of_length_le (by simp)
    simpa using this.symm
  · rintro rfl
    exact underPath_refl _

theorem not_underPath_child_self {d : Path} {a : String} : ¬ underPath (d ++ [a]) d :=
  not_underPath_of_length_lt (by simp)

/-! ### extractChild and child names -/

theorem extractChild_eq_some {p q : Path} {s : String} :
    extractChild p q = some s ↔ q = p ++ [s] := by
  unfold extractChild
  constructor
  · intro h
    split at h
    · rename_i hc
      obtain ⟨hlen, hund⟩ := hc
      have hq := hund.eq_append
      have hdl : (q.drop p.length).length = 1 := by
        rw [List.length_drop]
        omega
      rcases hdrop : q.drop p.length with _ | ⟨x, tl⟩
      · rw [hdrop] at hdl
        simp at hdl
      · rcases tl with _ | ⟨y, tl2⟩
        · rw [hdrop] at h hq
          simp at h
          rw [← h]
          exact hq
        · rw [hdrop] at hdl
          simp at hdl
    · exact absurd h (by simp)
  · rintro rfl
    have hund : underPath p (p ++ [s]) := underPath_append p [s]
    rw [if_pos ⟨by simp, hund⟩, List.drop_left]
    rfl

theorem mem_childNames {fs : Fs} {p : Path} {s : String} :
    s ∈ fs.childNames p ↔ fs.existsPath (p ++ [s]) := by
  unfold Fs.childNames Fs.existsPath
  rw [List.mem_filterMap]
  constructor
  · rintro ⟨q, hq, hext⟩
    rw [extractChild_eq_some] at hext
    rw [← hext]
    exact hq
  · intro h
    exact ⟨p ++ [s], h, extractChild_eq_some.2 rfl⟩

theorem childNames_nodup {fs : Fs} (h : fs.keys.Nodup) (p : Path) :
    (fs.childNames p).Nodup := by
  apply List.Nodup.filterMap _ h
  intro a a' b hb hb'
  rw [Option.mem_def, extractChild_eq_some] at hb hb'
  rw [hb, hb']

/-! ### Filesystem basics -/

theorem Fs.isDir.existsPath_of_dir {fs : Fs} {p : Path} (h : fs.isDir p) : fs.existsPath p :=
  List.mem_map.2 ⟨(p, EntryKind.dir), h, rfl⟩

theorem Fs.existsPath_iff {fs : Fs} {p : Path} :
    fs.existsPath p ↔ ∃ k, (p, k) ∈ fs.nodes := by
  unfold Fs.existsPath Fs.keys
  rw [List.mem_map]
  constructor
  · rintro ⟨⟨q, k⟩, hm, rfl⟩
    exact ⟨k, hm⟩
  · rintro ⟨k, hm⟩
    exact ⟨(p, k), hm, rfl⟩

theorem Fs.isFile.existsPath_of_file {fs : Fs} {p : Path} (h : fs.isFile p) : fs.existsPath p := by
  obtain ⟨e, he, h1, _⟩ := h
  exact List.mem_map.2 ⟨e, he, h1⟩

theorem Fs.WF.kind_eq {fs : Fs} (hwf : fs.WF) {p : Path} {k1 k2 : EntryKind}
    (h1 : (p, k1) ∈ fs.nodes) (h2 : (p, k2) ∈ fs.nodes) : k1 = k2 := by
  have hnd : (List.map Prod.fst fs.nodes).Nodup := hwf.2.1
  have hinj := List.inj_on_of_nodup_map hnd
  have := hinj h1 h2 rfl
  injection this with h3 h4

theorem Fs.isFile_of_not_isDir {fs : Fs} {p : Path}
    (he : fs.existsPath p) (hd : ¬ fs.isDir p) : fs.isFile p := by
  obtain ⟨k, hk⟩ := Fs.existsPath_iff.1 he
  cases k with
  | dir => exact absurd hk hd
  | file c => exact ⟨(p, .file c), hk, rfl, rfl⟩

theorem Fs.WF.isDir_dropLast {fs : Fs} (hwf : fs.WF) {p : Path} (h : fs.isDir p) :
    fs.isDir p.dropLast := by
  by_cases hp : p = []
  · subst hp
    simpa using hwf.1
  · exact hwf.2.2 (p, .dir) h hp

theorem Fs.WF.ancestor_isDir_aux {fs : Fs} (hwf : fs.WF) :
    ∀ n (q : Path), q.length ≤ n → fs.existsPath q →
      ∀ a, underPath a q → a ≠ q → fs.isDir a := by
  intro n
  induction n with
  | zero =>
      intro q hq he a hu hne
      have hq0 : q = [] := List.eq_nil_of_length_eq_zero (by omega)
      subst hq0
      have := hu.length_le
      have ha : a = [] := List.eq_nil_of_length_eq_zero (by omega)
      exact absurd ha hne
  | succ n ih =>
      intro q hq he a hu hne
      have hlt : a.length < q.length := by
        rcases Nat.lt_or_ge a.length q.length with h | h
        · exact h
        · exact absurd (hu.eq_of_length_le h).symm hne
      have hqnil : q ≠ [] := by
        intro h0
        rw [h0] at hlt
        simp at hlt
      obtain ⟨k, hk⟩ := Fs.existsPath_iff.1 he
      have hpar : fs.isDir q.dropLast := hwf.2.2 (q, k) hk hqnil
      have hu2 : underPath a q.dropLast := hu.dropLast_right hlt
      by_cases heq : a = q.dropLast
      · rw [heq]
        exact hpar
      · exact ih q.dropLast (by rw [List.length_dropLast]; omega) hpar.existsPath_of_dir a hu2 heq

theorem Fs.WF.ancestor_isDir {fs : Fs} (hwf : fs.WF) {q a : Path}
    (he : fs.existsPath q) (hu : underPath a q) (hne : a ≠ q) : fs.isDir a :=
  hwf.ancestor_isDir_aux q.length q le_rfl he a hu hne

/-! ### Characterizations of the filesystem operations -/

theorem exceptBind_ok {α β : Type} {x : Except String α} {f : α → Except String β} {b : β}
    (h : (x >>= f) = .ok b) : ∃ a, x = .ok a ∧ f a = .ok b := by
  cases x with
  | error e => simp [Bind.bind, Except.bind] at h
  | ok a => exact ⟨a, rfl, by simpa [Bind.bind, Except.bind] using h⟩

theorem read_entries_eq_ok {fs : Fs} {p : Path} (h : fs.isDir p) :
    read_entries fs p = .ok (List.insertionSort (fun a b => strLe a b = true) (fs.childNames p)) := by
  unfold read_entries
  rw [if_pos h]

theorem read_entries_eq_error {fs : Fs} {p : Path} (h : ¬ fs.isDir p) :
    read_entries fs p = .error "read_entries: cannot read directory" := by
  unfold read_entries
  rw [if_neg h]

theorem read_entries_ok_inv {fs : Fs} {p : Path} {l : List String}
    (h : read_entries fs p = .ok l) :
    fs.isDir p ∧ l = List.insertionSort (fun a b => strLe a b = true) (fs.childNames p) := by
  unfold read_entries at h
  split at h
  · rename_i hd
    exact ⟨hd, by injection h with h2; exact h2.symm⟩
  · exact absurd h (by simp)

theorem Fs.write_ok_of_not_exists {fs : Fs} {p : Path} {c : String} {fs' : Fs}
    (hne : ¬ fs.existsPath p) (h : fs.write p c = .ok fs') :
    fs'.nodes = (p, EntryKind.file c) :: fs.nodes ∧ fs.isDir p.dropLast ∧ p ≠ [] := by
  have hnd : ¬ fs.isDir p := fun hd => hne hd.existsPath_of_dir
  unfold Fs.write at h
  rw [if_neg hnd, if_neg hne] at h
  split at h
  · rename_i hc
    refine ⟨?_, hc.1, hc.2⟩
    injection h with h2
    rw [← h2]
  · exact absurd h (by simp)

theorem Fs.create_dir_ok_inv {fs : Fs} {p : Path} {fs' : Fs}
    (h : fs.create_dir p = .ok fs') :
    fs'.nodes = (p, EntryKind.dir) :: fs.nodes ∧ ¬ fs.existsPath p ∧
      fs.isDir p.dropLast ∧ p ≠ [] := by
  unfold Fs.create_dir at h
  split at h
  · exact absurd h (by simp)
  · rename_i hne
    split at h
    · rename_i hc
      refine ⟨?_, hne, hc.1, hc.2⟩
      injection h with h2
      rw [← h2]
    · exact absurd h (by simp)

theorem Fs.remove_dir_all_ok_inv {fs : Fs} {p : Path} {fs' : Fs}
    (h : fs.remove_dir_all p = .ok fs') :
    fs.isDir p ∧ fs'.nodes = fs.nodes.filter (fun e => decide (¬ underPath p e.1)) := by
  unfold Fs.remove_dir_all at h
  split at h
  · rename_i hd
    refine ⟨hd, ?_⟩
    injection h with h2
    rw [← h2]
  · exact absurd h (by simp)

theorem Fs.remove_dir_all_eq_ok {fs : Fs} {p : Path} (hd : fs.isDir p) :
    fs.remove_dir_all p = .ok ⟨fs.nodes.filter (fun e => decide (¬ underPath p e.1))⟩ := by
  unfold Fs.remove_dir_all
  rw [if_pos hd]

theorem Fs.remove_file_ok_inv {fs : Fs} {p : Path} {fs' : Fs}
    (h : fs.remove_file p = .ok fs') :
    fs.isFile p ∧ fs'.nodes = fs.nodes.filter (fun e => decide (e.1 ≠ p)) := by
  unfold Fs.remove_file at h
  split at h
  · rename_i hf
    refine ⟨hf, ?_⟩
    injection h with h2
    rw [← h2]
  · exact absurd h (by simp)

theorem Fs.remove_file_eq_ok {fs : Fs} {p : Path} (hf : fs.isFile p) :
    fs.remove_file p = .ok ⟨fs.nodes.filter (fun e => decide (e.1 ≠ p))⟩ := by
  unfold Fs.remove_file
  rw [if_pos hf]

theorem Fs.rename_ok_inv {fs : Fs} {old new : Path} {fs' : Fs}
    (h : fs.rename old new = .ok fs') :
    fs.existsPath old ∧ ¬ fs.existsPath new ∧ ¬ underPath old new ∧
      fs'.nodes = fs.nodes.map (renMap old new) := by
  unfold Fs.rename at h
  split at h
  · rename_i hc
    refine ⟨hc.1, hc.2.1, hc.2.2, ?_⟩
    injection h with h2
    rw [← h2]
  · exact absurd h (by simp)

theorem Fs.rename_eq_ok {fs : Fs} {old new : Path}
    (h1 : fs.existsPath old) (h2 : ¬ fs.existsPath new) (h3 : ¬ underPath old new) :
    fs.rename old new = .ok ⟨fs.nodes.map (renMap old new)⟩ := by
  unfold Fs.rename
  rw [if_pos ⟨h1, h2, h3⟩]

/-! ### Membership in mutated filesystems -/

theorem Fs.mem_keys_cons {p q : Path} {k : EntryKind} {ns : List (Path × EntryKind)} :
    (Fs.mk ((p, k) :: ns)).existsPath q ↔ q = p ∨ (Fs.mk ns).existsPath q := by
  unfold Fs.existsPath Fs.keys
  rw [List.map_cons, List.mem_cons]

theorem Fs.isDir_cons_of_isDir {p : Path} {k : EntryKind} {fs : Fs} {q : Path}
    (h : fs.isDir q) : (Fs.mk ((p, k) :: fs.nodes)).isDir q :=
  List.mem_cons_of_mem _ h

theorem Fs.mem_keys_filter (P : Path → Prop) [DecidablePred P] {fs : Fs} {q : Path} :
    (Fs.mk (fs.nodes.filter (fun e => decide (P e.1)))).existsPath q ↔
      fs.existsPath q ∧ P q := by
  unfold Fs.existsPath Fs.keys
  constructor
  · intro h
    rw [List.mem_map] at h
    obtain ⟨e, he, rfl⟩ := h
    rw [List.mem_filter] at he
    exact ⟨List.mem_map.2 ⟨e, he.1, rfl⟩, of_decide_eq_true he.2⟩
  · rintro ⟨h1, h2⟩
    rw [List.mem_map] at h1
    obtain ⟨e, he, rfl⟩ := h1
    exact List.mem_map.2 ⟨e, List.mem_filter.2 ⟨he, decide_eq_true h2⟩, rfl⟩

theorem Fs.isDir_filter_iff (P : Path → Prop) [DecidablePred P] {fs : Fs} {q : Path} :
    (Fs.mk (fs.nodes.filter (fun e => decide (P e.1)))).isDir q ↔ fs.isDir q ∧ P q := by
  unfold Fs.isDir
  rw [List.mem_filter]
  simp

/-! ### Well-formedness preservation -/

theorem Fs.WF.cons {fs : Fs} (hwf : fs.WF) {p : Path} {k : EntryKind}
    (hne : ¬ fs.existsPath p) (hparent : fs.isDir p.dropLast) :
    Fs.WF (Fs.mk ((p, k) :: fs.nodes)) := by
  refine ⟨List.mem_cons_of_mem _ hwf.1, ?_, ?_⟩
  · have : (Fs.mk ((p, k) :: fs.nodes)).keys = p :: fs.keys := rfl
    rw [this]
    exact List.Nodup.cons hne hwf.2.1
  · intro e he hne1
    rcases List.mem_cons.1 he with rfl | he2
    · exact List.mem_cons_of_mem _ hparent
    · exact List.mem_cons_of_mem _ (hwf.2.2 e he2 hne1)

theorem Fs.WF.remove_under {fs : Fs} (hwf : fs.WF) {p : Path} (hp : p ≠ []) :
    Fs.WF (Fs.mk (fs.nodes.filter (fun e => decide (¬ underPath p e.1)))) := by
  refine ⟨?_, ?_, ?_⟩
  · rw [Fs.isDir_filter_iff (fun q => ¬ underPath p q)]
    refine ⟨hwf.1, ?_⟩
    intro hu
    exact hp (List.eq_nil_of_length_eq_zero (by have := hu.length_le; simpa using this))
  · exact List.Nodup.sublist (List.Sublist.map _ (List.filter_sublist _)) hwf.2.1
  · intro e he hne1
    rw [List.mem_filter] at he
    have hsurv : ¬ underPath p e.1 := of_decide_eq_true he.2
    have hpar : fs.isDir e.1.dropLast := hwf.2.2 e he.1 hne1
    rw [Fs.isDir_filter_iff (fun q => ¬ underPath p q)]
    refine ⟨hpar, ?_⟩
    intro hu
    exact hsurv (underPath_of_dropLast hu hne1)

theorem Fs.WF.remove_single_file {fs : Fs} (hwf : fs.WF) {p : Path}
    (hf : fs.isFile p) :
    Fs.WF (Fs.mk (fs.nodes.filter (fun e => decide (e.1 ≠ p)))) := by
  obtain ⟨ef, hef, hef1, hef2⟩ := hf
  have hkind : ∀ {k : EntryKind}, (p, k) ∈ fs.nodes → k.isFileKind = true := by
    intro k hk
    have : ef.2 = k := by
      have : (p, ef.2) ∈ fs.nodes := by rw [← hef1]; exact hef
      have := hwf.kind_eq this hk
      exact this
    rw [← this]
    exact hef2
  refine ⟨?_, ?_, ?_⟩
  · rw [Fs.isDir_filter_iff (fun q => q ≠ p)]
    refine ⟨hwf.1, ?_⟩
    intro h0
    subst h0
    have := hkind hwf.1
    simp [EntryKind.isFileKind] at this
  · exact List.Nodup.sublist (List.Sublist.map _ (List.filter_sublist _)) hwf.2.1
  · intro e he hne1
    rw [List.mem_filter] at he
    have hpar : fs.isDir e.1.dropLast := hwf.2.2 e he.1 hne1
    rw [Fs.isDir_filter_iff (fun q => q ≠ p)]
    refine ⟨hpar, ?_⟩
    intro h0
    have := hkind (h0 ▸ hpar)
    simp [EntryKind.isFileKind] at this

/-! ### Rename lemmas -/

theorem renMap_fst (old new : Path) (e : Path × EntryKind) :
    (renMap old new e).1 = renKey old new e.1 := by
  unfold renMap renKey
  split
  · rfl
  · rfl

theorem renKey_of_under {old : Path} (new : Path) {q : Path} (h : underPath old q) :
    renKey old new q = new ++ q.drop old.length := by
  unfold renKey
  rw [if_pos h]

theorem renKey_of_not_under {old : Path} (new : Path) {q : Path} (h : ¬ underPath old q) :
    renKey old new q = q := by
  unfold renKey
  rw [if_neg h]

theorem renKey_old (old new : Path) : renKey old new old = new := by
  rw [renKey_of_under new (underPath_refl old), List.drop_length, List.append_nil]

theorem Fs.keys_map_renMap (fs : Fs) (old new : Path) :
    (Fs.mk (fs.nodes.map (renMap old new))).keys = fs.keys.map (renKey old new) := by
  unfold Fs.keys
  rw [List.map_map, List.map_map]
  apply List.map_congr_left
  intro e _
  exact renMap_fst old new e

theorem Fs.exists_map_renMap_iff {fs : Fs} {old new q : Path} :
    (Fs.mk (fs.nodes.map (renMap old new))).existsPath q ↔
      ∃ r ∈ fs.keys, renKey old new r = q := by
  unfold Fs.existsPath
  rw [Fs.keys_map_renMap, List.mem_map]

theorem Fs.exists_new_after_rename {fs : Fs} {old : Path} (new : Path)
    (h : fs.existsPath old) :
    (Fs.mk (fs.nodes.map (renMap old new))).existsPath new :=
  Fs.exists_map_renMap_iff.2 ⟨old, h, renKey_old old new⟩

theorem Fs.not_exists_old_after_rename {fs : Fs} {d : Path} {a b : String}
    (hne : a ≠ b) :
    ¬ (Fs.mk (fs.nodes.map (renMap (d ++ [a]) (d ++ [b])))).existsPath (d ++ [a]) := by
  intro h
  obtain ⟨r, hr, hkey⟩ := Fs.exists_map_renMap_iff.1 h
  by_cases hu : underPath (d ++ [a]) r
  · rw [renKey_of_under _ hu] at hkey
    generalize r.drop (d ++ [a]).length = t at hkey
    have hlen : t.length = 0 := by
      have hlen0 := congrArg List.length hkey
      simp only [List.length_append, List.length_singleton] at hlen0
      omega
    rw [List.eq_nil_of_length_eq_zero hlen, List.append_nil] at hkey
    have : b = a := by simpa using hkey
    exact hne this.symm
  · rw [renKey_of_not_under _ hu] at hkey
    exact hu (hkey ▸ underPath_refl _)

theorem Fs.isDir_map_renMap_of_not_under {fs : Fs} {old new q : Path}
    (hd : fs.isDir q) (hu : ¬ underPath old q) :
    (Fs.mk (fs.nodes.map (renMap old new))).isDir q := by
  have := List.mem_map_of_mem (renMap old new) hd
  unfold Fs.isDir
  have heq : renMap old new (q, EntryKind.dir) = (q, EntryKind.dir) := by
    unfold renMap
    rw [if_neg hu]
  rw [heq] at this
  exact this

theorem renKey_ne_of_mixed {fs : Fs} (hwf : fs.WF) {old new q1 q2 : Path}
    (hnew : ¬ fs.existsPath new)
    (hq2 : q2 ∈ fs.keys) (hu1 : underPath old q1) (hu2 : ¬ underPath old q2) :
    renKey old new q1 ≠ renKey old new q2 := by
  intro heq
  rw [renKey_of_under new hu1, renKey_of_not_under new hu2] at heq
  have hu : underPath new q2 := by
    rw [← heq]
    exact underPath_append _ _
  by_cases h0 : new = q2
  · subst h0
    exact hnew hq2
  · exact hnew (hwf.ancestor_isDir hq2 hu h0).existsPath_of_dir

theorem Fs.WF.rename_sibling {fs : Fs} (hwf : fs.WF) {d : Path} {a b : String}
    (hd : fs.isDir d) (hnew : ¬ fs.existsPath (d ++ [b])) :
    Fs.WF (Fs.mk (fs.nodes.map (renMap (d ++ [a]) (d ++ [b])))) := by
  set old := d ++ [a] with hold
  set new := d ++ [b] with hnewdef
  have hinj : ∀ q1 ∈ fs.keys, ∀ q2 ∈ fs.keys,
      renKey old new q1 = renKey old new q2 → q1 = q2 := by
    intro q1 hq1 q2 hq2 heq
    by_cases hu1 : underPath old q1 <;> by_cases hu2 : underPath old q2
    · rw [renKey_of_under new hu1, renKey_of_under new hu2] at heq
      have hdrop := List.append_cancel_left heq
      calc q1 = old ++ q1.drop old.length := hu1.eq_append
        _ = old ++ q2.drop old.length := by rw [hdrop]
        _ = q2 := hu2.eq_append.symm
    · exact absurd heq (renKey_ne_of_mixed hwf hnew hq2 hu1 hu2)
    · exact absurd heq.symm (renKey_ne_of_mixed hwf hnew hq1 hu2 hu1)
    · rw [renKey_of_not_under new hu1, renKey_of_not_under new hu2] at heq
      exact heq
  refine ⟨?_, ?_, ?_⟩
  · apply Fs.isDir_map_renMap_of_not_under hwf.1
    apply not_underPath_of_length_lt
    simp [hold]
  · rw [Fs.keys_map_renMap fs old new]
    exact hwf.2.1.map_on hinj
  · intro e' he' hne'
    have he2 : e' ∈ fs.nodes.map (renMap old new) := he'
    rw [List.mem_map] at he2
    obtain ⟨e, he, rfl⟩ := he2
    by_cases hu : underPath old e.1
    · have ht := hu.eq_append
      have he'eq : renMap old new e = (new ++ e.1.drop old.length, e.2) := by
        unfold renMap
        rw [if_pos hu]
      rw [he'eq]
      by_cases htnil : e.1.drop old.length = []
      · rw [htnil, List.append_nil]
        have hdl : new.dropLast = d := List.dropLast_concat
        rw [hdl]
        apply Fs.isDir_map_renMap_of_not_under hd
        apply not_underPath_of_length_lt
        simp [hold]
      · have hdl : (new ++ e.1.drop old.length).dropLast = new ++ (e.1.drop old.length).dropLast :=
          List.dropLast_append_of_ne_nil new htnil
        rw [hdl]
        have he1nil : e.1 ≠ [] := by
          rw [ht]
          simp [hold]
        have hpar : fs.isDir e.1.dropLast := hwf.2.2 e he he1nil
        have hpareq : e.1.dropLast = old ++ (e.1.drop old.length).dropLast := by
          conv_lhs => rw [ht]
          exact List.dropLast_append_of_ne_nil old htnil
        rw [hpareq] at hpar
        have himg := List.mem_map_of_mem (renMap old new) hpar
        have himgeq : renMap old new (old ++ (e.1.drop old.length).dropLast, EntryKind.dir) =
            (new ++ (e.1.drop old.length).dropLast, EntryKind.dir) := by
          unfold renMap
          rw [if_pos (underPath_append old _)]
          rw [List.drop_left]
        rw [himgeq] at himg
        exact himg
    · have he'eq : renMap old new e = e := by
        unfold renMap
        rw [if_neg hu]
      rw [he'eq]
      rw [he'eq] at hne'
      have hpar := hwf.2.2 e he hne'
      apply Fs.isDir_map_renMap_of_not_under hpar
      intro hu2
      exact hu (underPath_of_dropLast hu2 hne')

/-! ### Reachable-state invariant -/

theorem Fs.eq_mk_of_nodes {fs' : Fs} {l : List (Path × EntryKind)} (h : fs'.nodes = l) :
    fs' = Fs.mk l := by
  cases fs'
  cases h
  rfl

theorem read_ok_mem {fs : Fs} {p : Path} {l : List String}
    (h : read_entries fs p = .ok l) {x : String} :
    x ∈ l ↔ fs.existsPath (p ++ [x]) := by
  obtain ⟨hd, rfl⟩ := read_entries_ok_inv h
  rw [(List.perm_insertionSort (fun a b => strLe a b = true) (fs.childNames p)).mem_iff]
  exact mem_childNames

theorem read_ok_nodup {fs : Fs} {p : Path} {l : List String}
    (hnd : fs.keys.Nodup) (h : read_entries fs p = .ok l) : l.Nodup := by
  obtain ⟨hd, rfl⟩ := read_entries_ok_inv h
  exact ((List.perm_insertionSort (fun a b => strLe a b = true) (fs.childNames p)).nodup_iff).2
    (childNames_nodup hnd p)

theorem charsLe_iff_not_lt : ∀ as bs : List Char, charsLe as bs = true ↔ ¬ bs < as := by
  intro as
  induction as with
  | nil =>
      intro bs
      constructor
      · intro _ hlt
        cases hlt
      · intro _
        rfl
  | cons a as ih =>
      intro bs
      cases bs with
      | nil =>
          constructor
          · intro h
            simp [charsLe] at h
          · intro h
            exact absurd List.Lex.nil h
      | cons b bs =>
          unfold charsLe
          rcases lt_trichotomy a b with hab | hab | hab
          · rw [if_pos hab]
            constructor
            · intro _ hlt
              cases hlt with
              | cons h3 => exact absurd hab (lt_irrefl a)
              | rel hr => exact absurd hab (asymm hr)
            · intro _
              rfl
          · subst hab
            rw [if_neg (lt_irrefl a), if_neg (lt_irrefl a), ih bs]
            constructor
            · intro h hlt
              cases hlt with
              | cons h3 => exact h h3
              | rel hr => exact absurd hr (lt_irrefl a)
            · intro h hlt
              exact h (List.Lex.cons hlt)
          · rw [if_neg (asymm hab), if_pos hab]
            constructor
            · intro h
              exact absurd h (by simp)
            · intro h
              exact absurd (List.Lex.rel hab) h

theorem strLe_iff_le {a b : String} : strLe a b = true ↔ a ≤ b := by
  unfold strLe
  rw [charsLe_iff_not_lt, String.le_iff_toList_le]
  exact not_lt

theorem read_ok_sorted {fs : Fs} {p : Path} {l : List String}
    (h : read_entries fs p = .ok l) : l.Sorted (· ≤ ·) := by
  obtain ⟨hd, rfl⟩ := read_entries_ok_inv h
  have htot : IsTotal String (fun a b => strLe a b = true) := by
    refine ⟨fun a b => ?_⟩
    simp only [strLe_iff_le]
    exact le_total a b
  have htrans : IsTrans String (fun a b => strLe a b = true) := by
    refine ⟨fun a b c hab hbc => ?_⟩
    simp only [strLe_iff_le] at hab hbc ⊢
    exact le_trans hab hbc
  have hsorted := @List.sorted_insertionSort String (fun a b => strLe a b = true)
    _ htot htrans (fs.childNames p)
  exact hsorted.imp (fun hab => strLe_iff_le.1 hab)

theorem read_ok_nil_iff {fs : Fs} {p : Path} {l : List String}
    (h : read_entries fs p = .ok l) : l = [] ↔ fs.childNames p = [] := by
  obtain ⟨hd, rfl⟩ := read_entries_ok_inv h
  constructor
  · intro h0
    have hperm := List.perm_insertionSort (fun a b => strLe a b = true) (fs.childNames p)
    rw [h0] at hperm
    exact hperm.symm.eq_nil
  · intro h0
    rw [h0]
    rfl

theorem refresh_eq {fs : Fs} {s : AppState} {l : List String}
    (h : read_entries fs s.focus_dir = .ok l) :
    AppState.refresh_entries fs s = .ok
      { s with entries := l,
               selected_index :=
                 if s.selected_index ≥ l.length ∧ l ≠ [] then l.length - 1
                 else s.selected_index } := by
  unfold AppState.refresh_entries
  rw [h]
  rfl

theorem execute_popup_shape {fs : Fs} {s : AppState} {fs' : Fs} {s' : AppState}
    (h : execute_popup_action fs s = .ok (fs', s')) :
    popup_fs_action fs s = .ok fs' ∧
      AppState.refresh_entries fs'
        { s with popup_mode := PopupMode.none, input_buffer := "" } = .ok s' := by
  unfold execute_popup_action at h
  obtain ⟨a, ha, h2⟩ := exceptBind_ok h
  obtain ⟨s2, hs2, h3⟩ := exceptBind_ok h2
  injection h3 with h4
  injection h4 with h5 h6
  subst h5
  subst h6
  exact ⟨ha, hs2⟩

theorem GoodState.idx_zero_of_childNames_nil {fs : Fs} {s : AppState}
    (hg : GoodState fs s) (h : fs.childNames s.focus_dir = []) :
    s.selected_index = 0 := by
  apply hg.2.2.2.2
  exact (read_ok_nil_iff hg.2.2.1).2 h

theorem length_le_one_of_forall_eq {l : List String} {a : String} (hnd : l.Nodup)
    (hall : ∀ x ∈ l, x = a) : l.length ≤ 1 := by
  cases l with
  | nil => simp
  | cons x tl =>
      cases tl with
      | nil => simp
      | cons y tl2 =>
          have hx : x = a := hall x (by simp)
          have hy : y = a := hall y (by simp)
          rw [List.nodup_cons] at hnd
          exact absurd (by rw [hx, hy]; simp : x ∈ y :: tl2) hnd.1

theorem popup_fs_action_good {fs : Fs} {s : AppState} {fs2 : Fs}
    (hg : GoodState fs s) (h : popup_fs_action fs s = .ok fs2) :
    fs2.WF ∧ fs2.isDir s.focus_dir ∧
      (fs2.childNames s.focus_dir = [] → s.selected_index = 0) := by
  obtain ⟨hwf, hdir, hread, hsel1, hsel2⟩ := hg
  have base : fs.WF ∧ fs.isDir s.focus_dir ∧
      (fs.childNames s.focus_dir = [] → s.selected_index = 0) :=
    ⟨hwf, hdir, fun h0 => hsel2 ((read_ok_nil_iff hread).2 h0)⟩
  unfold popup_fs_action at h
  split at h
  -- createFile
  · split at h
    · split at h
      · rename_i hbuf hne
        obtain ⟨hnodes, hpar, hnnil⟩ := Fs.write_ok_of_not_exists hne h
        have hfs2 := Fs.eq_mk_of_nodes hnodes
        subst hfs2
        refine ⟨hwf.cons hne (by rw [List.dropLast_concat]; exact hdir), ?_, ?_⟩
        · exact Fs.isDir_cons_of_isDir hdir
        · intro h0
          have hmem : s.input_buffer ∈
              (Fs.mk ((s.focus_dir ++ [s.input_buffer], EntryKind.file "") ::
                fs.nodes)).childNames s.focus_dir :=
            mem_childNames.2 (Fs.mem_keys_cons.2 (Or.inl rfl))
          rw [h0] at hmem
          simp at hmem
      · injection h with h2
        subst h2
        exact base
    · injection h with h2
      subst h2
      exact base
  -- createDir
  · split at h
    · split at h
      · rename_i hbuf hne
        obtain ⟨hnodes, hne2, hpar, hnnil⟩ := Fs.create_dir_ok_inv h
        have hfs2 := Fs.eq_mk_of_nodes hnodes
        subst hfs2
        refine ⟨hwf.cons hne2 (by rw [List.dropLast_concat]; exact hdir), ?_, ?_⟩
        · exact Fs.isDir_cons_of_isDir hdir
        · intro h0
          have hmem : s.input_buffer ∈
              (Fs.mk ((s.focus_dir ++ [s.input_buffer], EntryKind.dir) ::
                fs.nodes)).childNames s.focus_dir :=
            mem_childNames.2 (Fs.mem_keys_cons.2 (Or.inl rfl))
          rw [h0] at hmem
          simp at hmem
      · injection h with h2
        subst h2
        exact base
    · injection h with h2
      subst h2
      exact base
  -- delete
  · split at h
    · split at h
      · rename_i hconf entry hsel
        split at h
        · rename_i hdT
          obtain ⟨hdT2, hnodes⟩ := Fs.remove_dir_all_ok_inv h
          have hfs2 := Fs.eq_mk_of_nodes hnodes
          subst hfs2
          refine ⟨hwf.remove_under (by simp), ?_, ?_⟩
          · exact (Fs.isDir_filter_iff
              (fun q => ¬ underPath (s.focus_dir ++ [entry]) q)).2
              ⟨hdir, not_underPath_of_length_lt (by simp)⟩
          · intro h0
            have hidxlt : s.selected_index < s.entries.length := by
              rw [List.getElem?_eq_some] at hsel
              exact hsel.1
            have hall : ∀ x ∈ s.entries, x = entry := by
              intro x hx
              by_contra hxne
              have hxex : fs.existsPath (s.focus_dir ++ [x]) := (read_ok_mem hread).1 hx
              have hx2 := (Fs.mem_keys_filter
                (fun q => ¬ underPath (s.focus_dir ++ [entry]) q)).2
                ⟨hxex, fun hu => hxne (underPath_child_iff.1 hu).symm⟩
              have hx3 := mem_childNames.2 hx2
              rw [h0] at hx3
              simp at hx3
            have hlen1 := length_le_one_of_forall_eq (read_ok_nodup hwf.2.1 hread) hall
            omega
        · rename_i hdT
          obtain ⟨hfT, hnodes⟩ := Fs.remove_file_ok_inv h
          have hfs2 := Fs.eq_mk_of_nodes hnodes
          subst hfs2
          refine ⟨hwf.remove_single_file hfT, ?_, ?_⟩
          · refine (Fs.isDir_filter_iff
              (fun q => q ≠ s.focus_dir ++ [entry])).2 ⟨hdir, ?_⟩
            intro heq
            have := congrArg List.length heq
            simp at this
          · intro h0
            have hidxlt : s.selected_index < s.entries.length := by
              rw [List.getElem?_eq_some] at hsel
              exact hsel.1
            have hall : ∀ x ∈ s.entries, x = entry := by
              intro x hx
              by_contra hxne
              have hxex : fs.existsPath (s.focus_dir ++ [x]) := (read_ok_mem hread).1 hx
              have hx2 := (Fs.mem_keys_filter
                (fun q => q ≠ s.focus_dir ++ [entry])).2
                ⟨hxex, fun hu => hxne (by simpa using hu)⟩
              have hx3 := mem_childNames.2 hx2
              rw [h0] at hx3
              simp at hx3
            have hlen1 := length_le_one_of_forall_eq (read_ok_nodup hwf.2.1 hread) hall
            omega
      · injection h with h2
        subst h2
        exact base
    · injection h with h2
      subst h2
      exact base
  -- rename
  · split at h
    · split at h
      · rename_i hbuf old_name hsel
        split at h
        · rename_i hcond
          obtain ⟨hold, hnewx, hnu, hnodes⟩ := Fs.rename_ok_inv h
          have hfs2 := Fs.eq_mk_of_nodes hnodes
          subst hfs2
          refine ⟨hwf.rename_sibling hdir hnewx, ?_, ?_⟩
          · exact Fs.isDir_map_renMap_of_not_under hdir
              (not_underPath_of_length_lt (by simp))
          · intro h0
            have hb := mem_childNames.2
              (Fs.exists_new_after_rename (s.focus_dir ++ [s.input_buffer]) hold)
            rw [h0] at hb
            simp at hb
        · injection h with h2
          subst h2
          exact base
      · injection h with h2
        subst h2
        exact base
    · injection h with h2
      subst h2
      exact base
  -- none
  · injection h with h2
    subst h2
    exact base

theorem execute_popup_good {fs : Fs} {s : AppState} {fs' : Fs} {s' : AppState}
    (hg : GoodState fs s) (h : execute_popup_action fs s = .ok (fs', s')) :
    GoodState fs' s' ∧ s'.focus_dir = s.focus_dir ∧
      s'.popup_mode = PopupMode.none ∧ s'.input_buffer = "" := by
  obtain ⟨hact, hrefresh⟩ := execute_popup_shape h
  obtain ⟨hwf2, hdir2, hidx0⟩ := popup_fs_action_good hg hact
  have hread2 : read_entries fs' s.focus_dir =
      .ok (List.insertionSort (fun a b => strLe a b = true) (fs'.childNames s.focus_dir)) :=
    read_entries_eq_ok hdir2
  have hrefresh2 : AppState.refresh_entries fs'
      { s with popup_mode := PopupMode.none, input_buffer := "" } = .ok
      { s with popup_mode := PopupMode.none, input_buffer := "",
               entries := List.insertionSort (fun a b => strLe a b = true) (fs'.childNames s.focus_dir),
               selected_index :=
                 if s.selected_index ≥
                     (List.insertionSort (fun a b => strLe a b = true) (fs'.childNames s.focus_dir)).length ∧
                     List.insertionSort (fun a b => strLe a b = true) (fs'.childNames s.focus_dir) ≠ [] then
                   (List.insertionSort (fun a b => strLe a b = true) (fs'.childNames s.focus_dir)).length - 1
                 else s.selected_index } := refresh_eq hread2
  rw [hrefresh2] at hrefresh
  injection hrefresh with h2
  subst h2
  set l := List.insertionSort (fun a b => strLe a b = true) (fs'.childNames s.focus_dir) with hl
  refine ⟨⟨hwf2, hdir2, hread2, ?_, ?_⟩, rfl, rfl, rfl⟩
  · intro hne
    have hne2 : l ≠ [] := hne
    show (if s.selected_index ≥ l.length ∧ l ≠ [] then l.length - 1
          else s.selected_index) < l.length
    have hpos := List.length_pos_of_ne_nil hne2
    by_cases hc : s.selected_index ≥ l.length ∧ l ≠ []
    · rw [if_pos hc]
      omega
    · rw [if_neg hc]
      rcases Nat.lt_or_ge s.selected_index l.length with hlt | hge
      · exact hlt
      · exact absurd ⟨hge, hne2⟩ hc
  · intro hnil
    have hnil2 : l = [] := hnil
    show (if s.selected_index ≥ l.length ∧ l ≠ [] then l.length - 1
          else s.selected_index) = 0
    rw [if_neg (fun hc => hc.2 hnil2)]
    exact hidx0 ((read_ok_nil_iff hread2).1 hnil2)

theorem handle_main_good {fs : Fs} {s : AppState} {code : KeyCode} {shift : Bool}
    {s' : AppState} (hg : GoodState fs s)
    (h : handle_main_input fs s code shift = .ok s') : GoodState fs s' := by
  obtain ⟨hwf, hdir, hread, hsel1, hsel2⟩ := hg
  cases code with
  | enter =>
      injection h with h2
      subst h2
      exact ⟨hwf, hdir, hread, hsel1, hsel2⟩
  | esc =>
      injection h with h2
      subst h2
      exact ⟨hwf, hdir, hread, hsel1, hsel2⟩
  | backspace =>
      injection h with h2
      subst h2
      exact ⟨hwf, hdir, hread, hsel1, hsel2⟩
  | up =>
      injection h with h2
      subst h2
      by_cases hpos : s.selected_index > 0
      · rw [if_pos hpos]
        refine ⟨hwf, hdir, hread, ?_, ?_⟩
        · intro hne
          have := hsel1 hne
          show s.selected_index - 1 < s.entries.length
          omega
        · intro hnil
          exact absurd (hsel2 hnil) (by omega)
      · rw [if_neg hpos]
        exact ⟨hwf, hdir, hread, hsel1, hsel2⟩
  | down =>
      injection h with h2
      subst h2
      by_cases hlt : s.selected_index + 1 < s.entries.length
      · rw [if_pos hlt]
        refine ⟨hwf, hdir, hread, ?_, ?_⟩
        · intro hne
          exact hlt
        · intro hnil
          rw [hnil] at hlt
          simp at hlt
      · rw [if_neg hlt]
        exact ⟨hwf, hdir, hread, hsel1, hsel2⟩
  | right =>
      simp only [handle_main_input] at h
      cases hselx : s.entries[s.selected_index]? with
      | none =>
          simp only [hselx] at h
          injection h with h2
          subst h2
          exact ⟨hwf, hdir, hread, hsel1, hsel2⟩
      | some entry =>
          simp only [hselx] at h
          by_cases hdirE : fs.isDir (s.focus_dir ++ [entry])
          · rw [if_pos hdirE] at h
            have hread3 : read_entries fs
                ({ s with focus_dir := s.focus_dir ++ [entry] } : AppState).focus_dir =
                .ok (List.insertionSort (fun a b => strLe a b = true) (fs.childNames (s.focus_dir ++ [entry]))) :=
              read_entries_eq_ok hdirE
            rw [refresh_eq hread3] at h
            injection h with h2
            subst h2
            refine ⟨hwf, hdirE, hread3, ?_, ?_⟩
            · intro hne
              exact List.length_pos_of_ne_nil hne
            · intro hnil
              rfl
          · rw [if_neg hdirE] at h
            injection h with h2
            subst h2
            exact ⟨hwf, hdir, hread, hsel1, hsel2⟩
  | left =>
      simp only [handle_main_input] at h
      have hdir3 : fs.isDir s.focus_dir.dropLast := hwf.isDir_dropLast hdir
      have hread3 : read_entries fs
          ({ s with focus_dir := s.focus_dir.dropLast } : AppState).focus_dir =
          .ok (List.insertionSort (fun a b => strLe a b = true) (fs.childNames s.focus_dir.dropLast)) :=
        read_entries_eq_ok hdir3
      rw [refresh_eq hread3] at h
      injection h with h2
      subst h2
      refine ⟨hwf, hdir3, hread3, ?_, ?_⟩
      · intro hne
        exact List.length_pos_of_ne_nil hne
      · intro hnil
        rfl
  | char c =>
      simp only [handle_main_input] at h
      split at h
      · injection h with h2
        subst h2
        exact ⟨hwf, hdir, hread, hsel1, hsel2⟩
      · split at h
        · injection h with h2
          subst h2
          split
          · exact ⟨hwf, hdir, hread, hsel1, hsel2⟩
          · exact ⟨hwf, hdir, hread, hsel1, hsel2⟩
        · split at h
          · injection h with h2
            subst h2
            split
            · exact ⟨hwf, hdir, hread, hsel1, hsel2⟩
            · exact ⟨hwf, hdir, hread, hsel1, hsel2⟩
          · injection h with h2
            subst h2
            exact ⟨hwf, hdir, hread, hsel1, hsel2⟩

theorem handle_input_good {fs : Fs} {s : AppState} {ev : KeyEvent} {fs' : Fs}
    {s' : AppState} (hg : GoodState fs s)
    (h : handle_input fs s ev = .ok (fs', s')) : GoodState fs' s' := by
  unfold handle_input at h
  split at h
  · unfold handle_popup_input at h
    split at h
    · injection h with h2
      injection h2 with ha hb
      subst ha
      subst hb
      obtain ⟨hwf, hdir, hread, hsel1, hsel2⟩ := hg
      exact ⟨hwf, hdir, hread, hsel1, hsel2⟩
    · exact (execute_popup_good hg h).1
    · injection h with h2
      injection h2 with ha hb
      subst ha
      subst hb
      obtain ⟨hwf, hdir, hread, hsel1, hsel2⟩ := hg
      exact ⟨hwf, hdir, hread, hsel1, hsel2⟩
    · injection h with h2
      injection h2 with ha hb
      subst ha
      subst hb
      obtain ⟨hwf, hdir, hread, hsel1, hsel2⟩ := hg
      exact ⟨hwf, hdir, hread, hsel1, hsel2⟩
    · injection h with h2
      injection h2 with ha hb
      subst ha
      subst hb
      exact hg
  · cases hm : handle_main_input fs s ev.code ev.shift with
    | error e =>
        rw [hm] at h
        simp [Except.map] at h
    | ok s2 =>
        rw [hm] at h
        have h3 : (Except.ok (fs, s2) : Except String (Fs × AppState)) = .ok (fs', s') := h
        injection h3 with h4
        injection h4 with ha hb
        subst ha
        subst hb
        exact handle_main_good hg hm

theorem run_good {evs : List KeyEvent} : ∀ {fs : Fs} {s : AppState} {fs' : Fs}
    {s' : AppState}, GoodState fs s → run fs s evs = .ok (fs', s') →
    GoodState fs' s' := by
  induction evs with
  | nil =>
      intro fs s fs' s' hg h
      unfold run at h
      injection h with h2
      injection h2 with ha hb
      subst ha
      subst hb
      exact hg
  | cons ev evs ih =>
      intro fs s fs' s' hg h
      unfold run at h
      split at h
      · injection h with h2
        injection h2 with ha hb
        subst ha
        subst hb
        exact hg
      · cases hstep : handle_input fs s ev with
        | error e =>
            rw [hstep] at h
            exact absurd h (by simp)
        | ok p =>
            rw [hstep] at h
            exact ih (handle_input_good hg hstep) h

/-! ### Helper lemmas for the claim theorems -/

theorem handle_input_popup_route {fs : Fs} {s : AppState} {code : KeyCode} {sh : Bool}
    (hmode : s.popup_mode ≠ PopupMode.none) :
    handle_input fs s ⟨code, sh⟩ = handle_popup_input fs s code := by
  unfold handle_input
  rw [if_pos hmode]

theorem handle_input_main_route {fs : Fs} {s : AppState} {code : KeyCode} {sh : Bool}
    (hmode : s.popup_mode = PopupMode.none) :
    handle_input fs s ⟨code, sh⟩ =
      (handle_main_input fs s code sh).map (fun s2 => (fs, s2)) := by
  unfold handle_input
  rw [if_neg (fun hc => hc hmode)]

theorem refresh_ok_inv {fs : Fs} {s s1 : AppState}
    (h : AppState.refresh_entries fs s = .ok s1) :
    ∃ l, read_entries fs s.focus_dir = .ok l ∧ s1 =
      { s with entries := l,
               selected_index :=
                 if s.selected_index ≥ l.length ∧ l ≠ [] then l.length - 1
                 else s.selected_index } := by
  unfold AppState.refresh_entries at h
  obtain ⟨l, hl, h2⟩ := exceptBind_ok h
  refine ⟨l, hl, ?_⟩
  injection h2 with h3
  exact h3.symm

theorem execute_popup_eq {fs fs2 : Fs} {s : AppState} {l : List String}
    (hact : popup_fs_action fs s = .ok fs2)
    (hread : read_entries fs2 s.focus_dir = .ok l) :
    execute_popup_action fs s = .ok (fs2,
      { s with popup_mode := PopupMode.none, input_buffer := "", entries := l,
               selected_index :=
                 if s.selected_index ≥ l.length ∧ l ≠ [] then l.length - 1
                 else s.selected_index }) := by
  unfold execute_popup_action
  rw [hact]
  have hread2 : read_entries fs2
      ({ s with popup_mode := PopupMode.none, input_buffer := "" } : AppState).focus_dir =
      .ok l := hread
  show (AppState.refresh_entries fs2
      { s with popup_mode := PopupMode.none, input_buffer := "" }) >>=
      (fun s1 => Except.ok (fs2, s1)) = _
  rw [refresh_eq hread2]
  rfl

theorem GoodState.selected_exists {fs : Fs} {s : AppState} {entry : String}
    (hg : GoodState fs s) (hsel : s.entries[s.selected_index]? = some entry) :
    fs.existsPath (s.focus_dir ++ [entry]) :=
  (read_ok_mem hg.2.2.1).1 (List.getElem?_mem hsel)

/-! ### Claim C3 -/

/-- C3: for every readable directory the entry list produced by
`read_entries` is lexicographically sorted, duplicate-free, and contains
exactly the names of the directory's immediate children; an unreadable
directory yields an error. -/
theorem entry_listing_sorted_nodup_exact (fs : Fs) (p : Path) (hwf : fs.WF) :
    (fs.isDir p → ∃ l, read_entries fs p = .ok l ∧ l.Sorted (· ≤ ·) ∧ l.Nodup ∧
      ∀ x : String, x ∈ l ↔ fs.existsPath (p ++ [x])) ∧
    (¬ fs.isDir p → ∃ msg, read_entries fs p = .error msg) := by
  constructor
  · intro hd
    have hok := read_entries_eq_ok hd
    exact ⟨_, hok, read_ok_sorted hok, read_ok_nodup hwf.2.1 hok,
      fun x => read_ok_mem hok⟩
  · intro hd
    exact ⟨_, read_entries_eq_error hd⟩

theorem entry_listing_sorted_nodup_exact_witness :
    Fs.WF fsW ∧ Fs.isDir fsW [] ∧
      (∃ l, read_entries fsW [] = .ok l ∧ l.Sorted (· ≤ ·) ∧ l.Nodup ∧
        ∀ x : String, x ∈ l ↔ fsW.existsPath ([] ++ [x])) :=
  ⟨by decide, by decide,
    (entry_listing_sorted_nodup_exact fsW [] (by decide)).1 (by decide)⟩

/-! ### Claim C10 -/

/-- C10: a refresh re-reads the focused directory; a selection index that
is out of range for the new non-empty listing is clamped to the last
index (not reset to 0), an in-range index is kept, and when the new
listing is empty the index is left unchanged. -/
theorem refresh_clamps_selection (fs : Fs) (s : AppState) (l : List String)
    (h : read_entries fs s.focus_dir = .ok l) :
    ∃ s1, AppState.refresh_entries fs s = .ok s1 ∧ s1.entries = l ∧
      (l ≠ [] → s.selected_index ≥ l.length → s1.selected_index = l.length - 1) ∧
      (l ≠ [] → s.selected_index < l.length → s1.selected_index = s.selected_index) ∧
      (l = [] → s1.selected_index = s.selected_index) := by
  refine ⟨_, refresh_eq h, rfl, ?_, ?_, ?_⟩
  · intro hne hge
    show (if s.selected_index ≥ l.length ∧ l ≠ [] then l.length - 1
          else s.selected_index) = l.length - 1
    rw [if_pos ⟨hge, hne⟩]
  · intro hne hlt
    show (if s.selected_index ≥ l.length ∧ l ≠ [] then l.length - 1
          else s.selected_index) = s.selected_index
    rw [if_neg (fun hc => absurd hc.1 (by omega))]
  · intro hnil
    show (if s.selected_index ≥ l.length ∧ l ≠ [] then l.length - 1
          else s.selected_index) = s.selected_index
    rw [if_neg (fun hc => hc.2 hnil)]

theorem refresh_clamps_selection_witness :
    read_entries fsW ({ sW with selected_index := 5 } : AppState).focus_dir =
      .ok ["a.txt", "b"] ∧
    (∃ s1, AppState.refresh_entries fsW { sW with selected_index := 5 } = .ok s1 ∧
      s1.entries = ["a.txt", "b"] ∧
      (["a.txt", "b"] ≠ ([] : List String) →
        ({ sW with selected_index := 5 } : AppState).selected_index ≥
          (["a.txt", "b"] : List String).length →
        s1.selected_index = (["a.txt", "b"] : List String).length - 1) ∧
      (["a.txt", "b"] ≠ ([] : List String) →
        ({ sW with selected_index := 5 } : AppState).selected_index <
          (["a.txt", "b"] : List String).length →
        s1.selected_index = ({ sW with selected_index := 5 } : AppState).selected_index) ∧
      (["a.txt", "b"] = ([] : List String) →
        s1.selected_index = ({ sW with selected_index := 5 } : AppState).selected_index)) :=
  ⟨by decide,
    refresh_clamps_selection fsW { sW with selected_index := 5 } ["a.txt", "b"] (by decide)⟩

/-! ### Claim C7 -/

/-- C7: from any active popup, Esc returns the mode to `None`, clears the
input buffer, and leaves the directory view (focused directory, entries,
selection) and the filesystem unchanged. -/
theorem esc_cancels_modal (fs : Fs) (s : AppState) (sh : Bool)
    (hmode : s.popup_mode ≠ PopupMode.none) :
    ∃ s1, handle_input fs s ⟨KeyCode.esc, sh⟩ = .ok (fs, s1) ∧
      s1.popup_mode = PopupMode.none ∧ s1.input_buffer = "" ∧
      s1.focus_dir = s.focus_dir ∧ s1.entries = s.entries ∧
      s1.selected_index = s.selected_index := by
  refine ⟨{ s with popup_mode := PopupMode.none, input_buffer := "" },
    ?_, rfl, rfl, rfl, rfl, rfl⟩
  rw [handle_input_popup_route hmode]
  rfl

theorem esc_cancels_modal_witness :
    ({ sW with popup_mode := PopupMode.rename, input_buffer := "a.txt" } :
      AppState).popup_mode ≠ PopupMode.none ∧
    (∃ s1, handle_input fsW
        { sW with popup_mode := PopupMode.rename, input_buffer := "a.txt" }
        ⟨KeyCode.esc, false⟩ = .ok (fsW, s1) ∧
      s1.popup_mode = PopupMode.none ∧ s1.input_buffer = "" ∧
      s1.focus_dir = sW.focus_dir ∧ s1.entries = sW.entries ∧
      s1.selected_index = sW.selected_index) :=
  ⟨by decide,
    esc_cancels_modal fsW
      { sW with popup_mode := PopupMode.rename, input_buffer := "a.txt" } false
      (by decide)⟩

/-! ### Claim C8 -/

/-- C8: Enter in any active popup, when the attempted action raises no
filesystem error, closes the popup, clears the buffer, and re-lists
`entries` from `focus_dir` — whether or not the action changed anything
on disk. -/
theorem enter_closes_modal_and_refreshes (fs : Fs) (s : AppState) (sh : Bool)
    (fs1 : Fs) (s1 : AppState) (hmode : s.popup_mode ≠ PopupMode.none)
    (h : handle_input fs s ⟨KeyCode.enter, sh⟩ = .ok (fs1, s1)) :
    s1.popup_mode = PopupMode.none ∧ s1.input_buffer = "" ∧
      s1.focus_dir = s.focus_dir ∧ read_entries fs1 s1.focus_dir = .ok s1.entries := by
  rw [handle_input_popup_route hmode] at h
  have h2 : execute_popup_action fs s = .ok (fs1, s1) := h
  obtain ⟨hact, hrefresh⟩ := execute_popup_shape h2
  obtain ⟨l, hl, hs1⟩ := refresh_ok_inv hrefresh
  subst hs1
  exact ⟨rfl, rfl, rfl, hl⟩

theorem enter_closes_modal_and_refreshes_witness :
    ({ sW with popup_mode := PopupMode.delete, input_buffer := "nope" } :
      AppState).popup_mode ≠ PopupMode.none ∧
    handle_input fsW { sW with popup_mode := PopupMode.delete, input_buffer := "nope" }
      ⟨KeyCode.enter, false⟩ = .ok (fsW, sW) ∧
    (sW.popup_mode = PopupMode.none ∧ sW.input_buffer = "" ∧
      sW.focus_dir =
        ({ sW with popup_mode := PopupMode.delete, input_buffer := "nope" } :
          AppState).focus_dir ∧
      read_entries fsW sW.focus_dir = .ok sW.entries) :=
  ⟨by decide, by decide,
    enter_closes_modal_and_refreshes fsW
      { sW with popup_mode := PopupMode.delete, input_buffer := "nope" } false fsW sW
      (by decide) (by decide)⟩

/-! ### Claim C9 -/

/-- C9: in navigation mode, Right changes the focused directory only when
the selected entry is a directory (appending it to `focus_dir` and
re-listing), is a no-op when the selected entry is a file or the listing
is empty, and after every successful Left or Right transition the
selection index is 0. -/
theorem navigation_right_left (fs : Fs) (s : AppState) (sh : Bool)
    (hmode : s.popup_mode = PopupMode.none) :
    (s.entries = [] → handle_input fs s ⟨KeyCode.right, sh⟩ = .ok (fs, s)) ∧
    (∀ entry, s.entries[s.selected_index]? = some entry →
      ¬ fs.isDir (s.focus_dir ++ [entry]) →
      handle_input fs s ⟨KeyCode.right, sh⟩ = .ok (fs, s)) ∧
    (∀ entry l, s.entries[s.selected_index]? = some entry →
      fs.isDir (s.focus_dir ++ [entry]) →
      read_entries fs (s.focus_dir ++ [entry]) = .ok l →
      ∃ s1, handle_input fs s ⟨KeyCode.right, sh⟩ = .ok (fs, s1) ∧
        s1.focus_dir = s.focus_dir ++ [entry] ∧ s1.selected_index = 0 ∧
        s1.entries = l) ∧
    (∀ l, read_entries fs s.focus_dir.dropLast = .ok l →
      ∃ s1, handle_input fs s ⟨KeyCode.left, sh⟩ = .ok (fs, s1) ∧
        s1.focus_dir = s.focus_dir.dropLast ∧ s1.selected_index = 0 ∧
        s1.entries = l) := by
  refine ⟨?_, ?_, ?_, ?_⟩
  · intro hnil
    rw [handle_input_main_route hmode]
    have hsel : s.entries[s.selected_index]? = none := by
      rw [hnil]
      rfl
    have hmain : handle_main_input fs s KeyCode.right sh = .ok s := by
      simp only [handle_main_input, hsel]
    rw [hmain]
    rfl
  · intro entry hsel hnd
    rw [handle_input_main_route hmode]
    have hmain : handle_main_input fs s KeyCode.right sh = .ok s := by
      simp only [handle_main_input, hsel]
      rw [if_neg hnd]
    rw [hmain]
    rfl
  · intro entry l hsel hd hread
    rw [handle_input_main_route hmode]
    have hread2 : read_entries fs
        ({ s with focus_dir := s.focus_dir ++ [entry] } : AppState).focus_dir =
        .ok l := hread
    have hmain : handle_main_input fs s KeyCode.right sh = .ok
        { s with focus_dir := s.focus_dir ++ [entry], entries := l,
                 selected_index := 0 } := by
      simp only [handle_main_input, hsel]
      rw [if_pos hd, refresh_eq hread2]
      rfl
    rw [hmain]
    exact ⟨_, rfl, rfl, rfl, rfl⟩
  · intro l hread
    rw [handle_input_main_route hmode]
    have hread2 : read_entries fs
        ({ s with focus_dir := s.focus_dir.dropLast } : AppState).focus_dir =
        .ok l := hread
    have hmain : handle_main_input fs s KeyCode.left sh = .ok
        { s with focus_dir := s.focus_dir.dropLast, entries := l,
                 selected_index := 0 } := by
      simp only [handle_main_input]
      rw [refresh_eq hread2]
      rfl
    rw [hmain]
    exact ⟨_, rfl, rfl, rfl, rfl⟩

theorem navigation_right_left_witness :
    ({ sW with selected_index := 1 } : AppState).popup_mode = PopupMode.none ∧
    ({ sW with selected_index := 1 } : AppState).entries[
      ({ sW with selected_index := 1 } : AppState).selected_index]? = some "b" ∧
    Fs.isDir fsW (([] : Path) ++ ["b"]) ∧
    read_entries fsW (([] : Path) ++ ["b"]) = .ok ["c.txt"] ∧
    (∃ s1, handle_input fsW { sW with selected_index := 1 } ⟨KeyCode.right, false⟩ =
        .ok (fsW, s1) ∧
      s1.focus_dir = ({ sW with selected_index := 1 } : AppState).focus_dir ++ ["b"] ∧
      s1.selected_index = 0 ∧ s1.entries = ["c.txt"]) :=
  ⟨by decide, by decide, by decide, by decide,
    (navigation_right_left fsW { sW with selected_index := 1 } false (by decide)).2.2.1
      "b" ["c.txt"] (by decide) (by decide) (by decide)⟩

/-! ### Claim C6 -/

/-- C6: Enter in navigation mode sets the exit flag regardless of what is
selected; the main loop stops as soon as the flag is observed true; and
the shell command emitted on exit is a single string embedding the final
focused directory. -/
theorem enter_exits_and_emits_cd (fs : Fs) (s : AppState) (sh : Bool)
    (evs : List KeyEvent) (p : Path) :
    (s.popup_mode = PopupMode.none →
      handle_input fs s ⟨KeyCode.enter, sh⟩ = .ok (fs, { s with break_now := true })) ∧
    (s.break_now = true → run fs s evs = .ok (fs, s)) ∧
    (∃ pre post, exit_command p = pre ++ pathDisplay p ++ post) := by
  refine ⟨?_, ?_, ?_⟩
  · intro hmode
    rw [handle_input_main_route hmode]
    rfl
  · intro hbreak
    cases evs with
    | nil => rfl
    | cons e es =>
        unfold run
        rw [if_pos hbreak]
  · refine ⟨"echo cd " ++ squote ++ "\"", "\"" ++ squote ++ " | clip.exe", ?_⟩
    unfold exit_command
    simp only [String.append_assoc]

theorem enter_exits_and_emits_cd_witness :
    handle_input fsW { sW with break_now := true } ⟨KeyCode.enter, false⟩ =
      .ok (fsW, { sW with break_now := true }) ∧
    run fsW { sW with break_now := true } [⟨KeyCode.up, false⟩] =
      .ok (fsW, { sW with break_now := true }) ∧
    (∃ pre post, exit_command ["b"] = pre ++ pathDisplay ["b"] ++ post) :=
  ⟨(enter_exits_and_emits_cd fsW { sW with break_now := true } false
      [⟨KeyCode.up, false⟩] ["b"]).1 (by decide),
   (enter_exits_and_emits_cd fsW { sW with break_now := true } false
      [⟨KeyCode.up, false⟩] ["b"]).2.1 (by decide),
   (enter_exits_and_emits_cd fsW { sW with break_now := true } false
      [⟨KeyCode.up, false⟩] ["b"]).2.2⟩

/-! ### Popup-action equations by mode -/

theorem handle_popup_enter (fs : Fs) (s : AppState) :
    handle_popup_input fs s KeyCode.enter = execute_popup_action fs s := rfl

theorem popup_fs_action_delete {fs : Fs} {s : AppState}
    (hmode : s.popup_mode = PopupMode.delete) :
    popup_fs_action fs s =
      (if strToLower s.input_buffer = "y" ∨ strToLower s.input_buffer = "yes" then
        match s.entries[s.selected_index]? with
        | some entry =>
            if fs.isDir (s.focus_dir ++ [entry]) then
              fs.remove_dir_all (s.focus_dir ++ [entry])
            else fs.remove_file (s.focus_dir ++ [entry])
        | none => .ok fs
      else .ok fs) := by
  unfold popup_fs_action
  rw [hmode]

theorem popup_fs_action_rename {fs : Fs} {s : AppState}
    (hmode : s.popup_mode = PopupMode.rename) :
    popup_fs_action fs s =
      (if ¬ (strTrim s.input_buffer = "") then
        match s.entries[s.selected_index]? with
        | some old_name =>
            if s.focus_dir ++ [old_name] ≠ s.focus_dir ++ [s.input_buffer] ∧
                ¬ fs.existsPath (s.focus_dir ++ [s.input_buffer]) then
              fs.rename (s.focus_dir ++ [old_name]) (s.focus_dir ++ [s.input_buffer])
            else .ok fs
        | none => .ok fs
      else .ok fs) := by
  unfold popup_fs_action
  rw [hmode]

theorem popup_fs_action_createFile {fs : Fs} {s : AppState}
    (hmode : s.popup_mode = PopupMode.createFile) :
    popup_fs_action fs s =
      (if ¬ (strTrim s.input_buffer = "") then
        if ¬ fs.existsPath (s.focus_dir ++ [s.input_buffer]) then
          fs.write (s.focus_dir ++ [s.input_buffer]) ""
        else .ok fs
      else .ok fs) := by
  unfold popup_fs_action
  rw [hmode]

theorem popup_fs_action_createDir {fs : Fs} {s : AppState}
    (hmode : s.popup_mode = PopupMode.createDir) :
    popup_fs_action fs s =
      (if ¬ (strTrim s.input_buffer = "") then
        if ¬ fs.existsPath (s.focus_dir ++ [s.input_buffer]) then
          fs.create_dir (s.focus_dir ++ [s.input_buffer])
        else .ok fs
      else .ok fs) := by
  unfold popup_fs_action
  rw [hmode]

/-! ### Claim C2 -/

/-- C2: in the Delete modal, Enter removes the selected entry (recursively
for a directory, single-file otherwise) exactly when the lower-cased,
untrimmed buffer equals `"y"` or `"yes"`; for any other buffer content
the filesystem is returned unchanged and the selected entry remains
present. -/
theorem delete_requires_exact_confirmation (fs : Fs) (s : AppState) (sh : Bool)
    (entry : String) (hg : GoodState fs s) (hmode : s.popup_mode = PopupMode.delete)
    (hsel : s.entries[s.selected_index]? = some entry) :
    (¬ (strToLower s.input_buffer = "y" ∨ strToLower s.input_buffer = "yes") →
      ∃ s1, handle_input fs s ⟨KeyCode.enter, sh⟩ = .ok (fs, s1) ∧
        fs.existsPath (s.focus_dir ++ [entry])) ∧
    ((strToLower s.input_buffer = "y" ∨ strToLower s.input_buffer = "yes") →
      ∃ fs1 s1, handle_input fs s ⟨KeyCode.enter, sh⟩ = .ok (fs1, s1) ∧
        ¬ fs1.existsPath (s.focus_dir ++ [entry]) ∧
        (fs.isDir (s.focus_dir ++ [entry]) →
          ∀ q, fs1.existsPath q ↔
            fs.existsPath q ∧ ¬ underPath (s.focus_dir ++ [entry]) q) ∧
        (¬ fs.isDir (s.focus_dir ++ [entry]) →
          ∀ q, fs1.existsPath q ↔ fs.existsPath q ∧ q ≠ s.focus_dir ++ [entry])) := by
  have hmodene : s.popup_mode ≠ PopupMode.none := by
    rw [hmode]
    intro hc
    cases hc
  constructor
  · intro hnc
    rw [handle_input_popup_route hmodene, handle_popup_enter]
    have hact : popup_fs_action fs s = .ok fs := by
      rw [popup_fs_action_delete hmode, if_neg hnc]
    rw [execute_popup_eq hact hg.2.2.1]
    exact ⟨_, rfl, hg.selected_exists hsel⟩
  · intro hc
    rw [handle_input_popup_route hmodene, handle_popup_enter]
    by_cases hdT : fs.isDir (s.focus_dir ++ [entry])
    · have hact : popup_fs_action fs s = .ok
          (Fs.mk (fs.nodes.filter
            (fun e => decide (¬ underPath (s.focus_dir ++ [entry]) e.1)))) := by
        rw [popup_fs_action_delete hmode, if_pos hc]
        simp only [hsel]
        rw [if_pos hdT]
        exact Fs.remove_dir_all_eq_ok hdT
      have hdir1 : (Fs.mk (fs.nodes.filter
          (fun e => decide (¬ underPath (s.focus_dir ++ [entry]) e.1)))).isDir
          s.focus_dir :=
        (Fs.isDir_filter_iff (fun q => ¬ underPath (s.focus_dir ++ [entry]) q)).2
          ⟨hg.2.1, not_underPath_of_length_lt (by simp)⟩
      rw [execute_popup_eq hact (read_entries_eq_ok hdir1)]
      refine ⟨_, _, rfl, ?_, ?_, ?_⟩
      · intro hex
        exact ((Fs.mem_keys_filter
          (fun q => ¬ underPath (s.focus_dir ++ [entry]) q)).1 hex).2
          (underPath_refl _)
      · intro _ q
        exact Fs.mem_keys_filter (fun q => ¬ underPath (s.focus_dir ++ [entry]) q)
      · intro hnd
        exact absurd hdT hnd
    · have hfT : fs.isFile (s.focus_dir ++ [entry]) :=
        Fs.isFile_of_not_isDir (hg.selected_exists hsel) hdT
      have hact : popup_fs_action fs s = .ok
          (Fs.mk (fs.nodes.filter
            (fun e => decide (e.1 ≠ s.focus_dir ++ [entry])))) := by
        rw [popup_fs_action_delete hmode, if_pos hc]
        simp only [hsel]
        rw [if_neg hdT]
        exact Fs.remove_file_eq_ok hfT
      have hdir1 : (Fs.mk (fs.nodes.filter
          (fun e => decide (e.1 ≠ s.focus_dir ++ [entry])))).isDir s.focus_dir := by
        refine (Fs.isDir_filter_iff (fun q => q ≠ s.focus_dir ++ [entry])).2
          ⟨hg.2.1, ?_⟩
        intro heq
        have := congrArg List.length heq
        simp at this
      rw [execute_popup_eq hact (read_entries_eq_ok hdir1)]
      refine ⟨_, _, rfl, ?_, ?_, ?_⟩
      · intro hex
        exact ((Fs.mem_keys_filter
          (fun q => q ≠ s.focus_dir ++ [entry])).1 hex).2 rfl
      · intro hd
        exact absurd hd hdT
      · intro _ q
        exact Fs.mem_keys_filter (fun q => q ≠ s.focus_dir ++ [entry])

theorem delete_requires_exact_confirmation_witness :
    GoodState fsW { sW with popup_mode := PopupMode.delete, input_buffer := "Yes" } ∧
    (∃ fs1 s1, handle_input fsW
        { sW with popup_mode := PopupMode.delete, input_buffer := "Yes" }
        ⟨KeyCode.enter, false⟩ = .ok (fs1, s1) ∧
      ¬ fs1.existsPath (([] : Path) ++ ["a.txt"]) ∧
      (fsW.isDir (([] : Path) ++ ["a.txt"]) →
        ∀ q, fs1.existsPath q ↔
          fsW.existsPath q ∧ ¬ underPath (([] : Path) ++ ["a.txt"]) q) ∧
      (¬ fsW.isDir (([] : Path) ++ ["a.txt"]) →
        ∀ q, fs1.existsPath q ↔ fsW.existsPath q ∧ q ≠ ([] : Path) ++ ["a.txt"])) :=
  ⟨by decide,
    (delete_requires_exact_confirmation fsW
      { sW with popup_mode := PopupMode.delete, input_buffer := "Yes" } false "a.txt"
      (by decide) (by decide) (by decide)).2 (by decide)⟩

/-! ### Claim C4 -/

/-- C4: in the Rename modal, Enter renames the selected entry's path to
`focus_dir` joined with the buffer only when the trimmed buffer is
non-empty, the old and new paths differ, and the new path does not exist;
on a collision (or identical paths) the filesystem is returned unchanged
with both paths still present. -/
theorem rename_collision_guard (fs : Fs) (s : AppState) (sh : Bool)
    (old_name : String) (hg : GoodState fs s)
    (hmode : s.popup_mode = PopupMode.rename)
    (hsel : s.entries[s.selected_index]? = some old_name) :
    (strTrim s.input_buffer = "" →
      ∃ s1, handle_input fs s ⟨KeyCode.enter, sh⟩ = .ok (fs, s1)) ∧
    (¬ (strTrim s.input_buffer = "") →
      (s.focus_dir ++ [old_name] = s.focus_dir ++ [s.input_buffer] ∨
        fs.existsPath (s.focus_dir ++ [s.input_buffer])) →
      ∃ s1, handle_input fs s ⟨KeyCode.enter, sh⟩ = .ok (fs, s1) ∧
        fs.existsPath (s.focus_dir ++ [old_name]) ∧
        fs.existsPath (s.focus_dir ++ [s.input_buffer])) ∧
    (¬ (strTrim s.input_buffer = "") →
      s.focus_dir ++ [old_name] ≠ s.focus_dir ++ [s.input_buffer] →
      ¬ fs.existsPath (s.focus_dir ++ [s.input_buffer]) →
      ∃ fs1 s1, handle_input fs s ⟨KeyCode.enter, sh⟩ = .ok (fs1, s1) ∧
        fs1.existsPath (s.focus_dir ++ [s.input_buffer]) ∧
        ¬ fs1.existsPath (s.focus_dir ++ [old_name])) := by
  have hmodene : s.popup_mode ≠ PopupMode.none := by
    rw [hmode]
    intro hc
    cases hc
  refine ⟨?_, ?_, ?_⟩
  · intro htrim
    rw [handle_input_popup_route hmodene, handle_popup_enter]
    have hact : popup_fs_action fs s = .ok fs := by
      rw [popup_fs_action_rename hmode, if_neg (fun hc => hc htrim)]
    rw [execute_popup_eq hact hg.2.2.1]
    exact ⟨_, rfl⟩
  · intro hbuf hcol
    rw [handle_input_popup_route hmodene, handle_popup_enter]
    have hact : popup_fs_action fs s = .ok fs := by
      rw [popup_fs_action_rename hmode, if_pos hbuf]
      simp only [hsel]
      rw [if_neg (fun hc => ?_)]
      rcases hcol with heq | hex
      · exact hc.1 heq
      · exact hc.2 hex
    rw [execute_popup_eq hact hg.2.2.1]
    refine ⟨_, rfl, hg.selected_exists hsel, ?_⟩
    rcases hcol with heq | hex
    · rw [← heq]
      exact hg.selected_exists hsel
    · exact hex
  · intro hbuf hne hnex
    rw [handle_input_popup_route hmodene, handle_popup_enter]
    have hold : fs.existsPath (s.focus_dir ++ [old_name]) := hg.selected_exists hsel
    have hnu : ¬ underPath (s.focus_dir ++ [old_name])
        (s.focus_dir ++ [s.input_buffer]) := by
      intro hu
      exact hne (hu.eq_of_length_le (by simp)).symm
    have hact : popup_fs_action fs s = .ok
        (Fs.mk (fs.nodes.map
          (renMap (s.focus_dir ++ [old_name]) (s.focus_dir ++ [s.input_buffer])))) := by
      rw [popup_fs_action_rename hmode, if_pos hbuf]
      simp only [hsel]
      rw [if_pos ⟨hne, hnex⟩]
      exact Fs.rename_eq_ok hold hnex hnu
    have hdir1 : (Fs.mk (fs.nodes.map
        (renMap (s.focus_dir ++ [old_name]) (s.focus_dir ++ [s.input_buffer])))).isDir
        s.focus_dir :=
      Fs.isDir_map_renMap_of_not_under hg.2.1 (not_underPath_of_length_lt (by simp))
    rw [execute_popup_eq hact (read_entries_eq_ok hdir1)]
    refine ⟨_, _, rfl, Fs.exists_new_after_rename _ hold, ?_⟩
    apply Fs.not_exists_old_after_rename
    intro heq
    exact hne (by rw [heq])

theorem rename_collision_guard_witness :
    GoodState fsW { sW with popup_mode := PopupMode.rename, input_buffer := "b" } ∧
    (∃ s1, handle_input fsW
        { sW with popup_mode := PopupMode.rename, input_buffer := "b" }
        ⟨KeyCode.enter, false⟩ = .ok (fsW, s1) ∧
      fsW.existsPath (([] : Path) ++ ["a.txt"]) ∧
      fsW.existsPath (([] : Path) ++ ["b"])) :=
  ⟨by decide,
    (rename_collision_guard fsW
      { sW with popup_mode := PopupMode.rename, input_buffer := "b" } false "a.txt"
      (by decide) (by decide) (by decide)).2.1 (by decide) (by decide)⟩

/-! ### Claim C5 -/

/-- C5: in the CreateFile (resp. CreateDir) modal, Enter creates an empty
file (resp. a directory) named by the buffer inside `focus_dir` only when
the trimmed buffer is non-empty and the target does not already exist;
when the target exists (or the buffer trims to empty) the filesystem is
returned unchanged and the popup still closes. -/
theorem create_noop_on_collision (fs : Fs) (s : AppState) (sh : Bool)
    (hg : GoodState fs s)
    (hmode : s.popup_mode = PopupMode.createFile ∨
      s.popup_mode = PopupMode.createDir) :
    (strTrim s.input_buffer = "" →
      ∃ s1, handle_input fs s ⟨KeyCode.enter, sh⟩ = .ok (fs, s1) ∧
        s1.popup_mode = PopupMode.none) ∧
    (fs.existsPath (s.focus_dir ++ [s.input_buffer]) →
      ∃ s1, handle_input fs s ⟨KeyCode.enter, sh⟩ = .ok (fs, s1) ∧
        s1.popup_mode = PopupMode.none) ∧
    (¬ (strTrim s.input_buffer = "") →
      ¬ fs.existsPath (s.focus_dir ++ [s.input_buffer]) →
      s.popup_mode = PopupMode.createFile →
      ∃ fs1 s1, handle_input fs s ⟨KeyCode.enter, sh⟩ = .ok (fs1, s1) ∧
        fs1.isFile (s.focus_dir ++ [s.input_buffer]) ∧
        s1.popup_mode = PopupMode.none) ∧
    (¬ (strTrim s.input_buffer = "") →
      ¬ fs.existsPath (s.focus_dir ++ [s.input_buffer]) →
      s.popup_mode = PopupMode.createDir →
      ∃ fs1 s1, handle_input fs s ⟨KeyCode.enter, sh⟩ = .ok (fs1, s1) ∧
        fs1.isDir (s.focus_dir ++ [s.input_buffer]) ∧
        s1.popup_mode = PopupMode.none) := by
  have hmodene : s.popup_mode ≠ PopupMode.none := by
    rcases hmode with hm | hm <;> rw [hm] <;> intro hc <;> cases hc
  refine ⟨?_, ?_, ?_, ?_⟩
  · intro htrim
    rw [handle_input_popup_route hmodene, handle_popup_enter]
    have hact : popup_fs_action fs s = .ok fs := by
      rcases hmode with hm | hm
      · rw [popup_fs_action_createFile hm, if_neg (fun hc => hc htrim)]
      · rw [popup_fs_action_createDir hm, if_neg (fun hc => hc htrim)]
    rw [execute_popup_eq hact hg.2.2.1]
    exact ⟨_, rfl, rfl⟩
  · intro hex
    rw [handle_input_popup_route hmodene, handle_popup_enter]
    have hact : popup_fs_action fs s = .ok fs := by
      rcases hmode with hm | hm
      · rw [popup_fs_action_createFile hm]
        by_cases hbuf : strTrim s.input_buffer = ""
        · rw [if_neg (fun hc => hc hbuf)]
        · rw [if_pos hbuf, if_neg (fun hc => hc hex)]
      · rw [popup_fs_action_createDir hm]
        by_cases hbuf : strTrim s.input_buffer = ""
        · rw [if_neg (fun hc => hc hbuf)]
        · rw [if_pos hbuf, if_neg (fun hc => hc hex)]
    rw [execute_popup_eq hact hg.2.2.1]
    exact ⟨_, rfl, rfl⟩
  · intro hbuf hnex hm
    rw [handle_input_popup_route hmodene, handle_popup_enter]
    have hw : fs.write (s.focus_dir ++ [s.input_buffer]) "" = .ok
        (Fs.mk ((s.focus_dir ++ [s.input_buffer], EntryKind.file "") :: fs.nodes)) := by
      unfold Fs.write
      rw [if_neg (fun hd => hnex hd.existsPath_of_dir), if_neg hnex,
        if_pos ⟨by rw [List.dropLast_concat]; exact hg.2.1, by simp⟩]
    have hact : popup_fs_action fs s = .ok
        (Fs.mk ((s.focus_dir ++ [s.input_buffer], EntryKind.file "") :: fs.nodes)) := by
      rw [popup_fs_action_createFile hm, if_pos hbuf, if_pos hnex]
      exact hw
    have hdir1 : (Fs.mk ((s.focus_dir ++ [s.input_buffer], EntryKind.file "") ::
        fs.nodes)).isDir s.focus_dir := Fs.isDir_cons_of_isDir hg.2.1
    rw [execute_popup_eq hact (read_entries_eq_ok hdir1)]
    exact ⟨_, _, rfl,
      ⟨(s.focus_dir ++ [s.input_buffer], EntryKind.file ""), List.mem_cons_self _ _,
        rfl, rfl⟩, rfl⟩
  · intro hbuf hnex hm
    rw [handle_input_popup_route hmodene, handle_popup_enter]
    have hw : fs.create_dir (s.focus_dir ++ [s.input_buffer]) = .ok
        (Fs.mk ((s.focus_dir ++ [s.input_buffer], EntryKind.dir) :: fs.nodes)) := by
      unfold Fs.create_dir
      rw [if_neg hnex,
        if_pos ⟨by rw [List.dropLast_concat]; exact hg.2.1, by simp⟩]
    have hact : popup_fs_action fs s = .ok
        (Fs.mk ((s.focus_dir ++ [s.input_buffer], EntryKind.dir) :: fs.nodes)) := by
      rw [popup_fs_action_createDir hm, if_pos hbuf, if_pos hnex]
      exact hw
    have hdir1 : (Fs.mk ((s.focus_dir ++ [s.input_buffer], EntryKind.dir) ::
        fs.nodes)).isDir s.focus_dir := Fs.isDir_cons_of_isDir hg.2.1
    rw [execute_popup_eq hact (read_entries_eq_ok hdir1)]
    exact ⟨_, _, rfl, List.mem_cons_self _ _, rfl⟩

theorem create_noop_on_collision_witness :
    GoodState fsW
      { sW with popup_mode := PopupMode.createFile, input_buffer := "a.txt" } ∧
    fsW.existsPath (([] : Path) ++ ["a.txt"]) ∧
    (∃ s1, handle_input fsW
        { sW with popup_mode := PopupMode.createFile, input_buffer := "a.txt" }
        ⟨KeyCode.enter, false⟩ = .ok (fsW, s1) ∧
      s1.popup_mode = PopupMode.none) :=
  ⟨by decide, by decide,
    (create_noop_on_collision fsW
      { sW with popup_mode := PopupMode.createFile, input_buffer := "a.txt" } false
      (by decide) (Or.inl (by decide))).2.1 (by decide)⟩

/-! ### Claim C1 -/

/-- C1: starting from the initial state in any well-formed filesystem, for
every sequence of key events (navigation, directory changes, and modal
actions that refresh the entry list), the selection index stays within
`[0, entries.length - 1]` whenever `entries` is non-empty, and equals 0
whenever `entries` is empty. -/
theorem selection_index_invariant (fs : Fs) (cwd : Path) (s0 : AppState)
    (evs : List KeyEvent) (fs1 : Fs) (s1 : AppState)
    (hwf : fs.WF) (hdir : fs.isDir cwd)
    (hnew : AppState.new fs cwd = .ok s0)
    (hrun : run fs s0 evs = .ok (fs1, s1)) :
    (s1.entries ≠ [] → s1.selected_index < s1.entries.length) ∧
    (s1.entries = [] → s1.selected_index = 0) := by
  have hg0 : GoodState fs s0 := by
    unfold AppState.new at hnew
    obtain ⟨l, hl, h2⟩ := exceptBind_ok hnew
    injection h2 with h3
    subst h3
    refine ⟨hwf, hdir, hl, ?_, ?_⟩
    · intro hne
      exact List.length_pos_of_ne_nil hne
    · intro _
      rfl
  have hg1 := run_good hg0 hrun
  exact ⟨hg1.2.2.2.1, hg1.2.2.2.2⟩

theorem selection_index_invariant_witness :
    Fs.WF fsW ∧ Fs.isDir fsW [] ∧ AppState.new fsW [] = .ok sW ∧
    run fsW sW [⟨KeyCode.down, false⟩, ⟨KeyCode.char 'd', false⟩,
        ⟨KeyCode.char 'y', false⟩, ⟨KeyCode.enter, false⟩] =
      .ok (Fs.mk [([], EntryKind.dir), (["a.txt"], EntryKind.file "hi")],
        { sW with entries := ["a.txt"] }) ∧
    (({ sW with entries := ["a.txt"] } : AppState).entries ≠ [] →
      ({ sW with entries := ["a.txt"] } : AppState).selected_index <
        ({ sW with entries := ["a.txt"] } : AppState).entries.length) ∧
    (({ sW with entries := ["a.txt"] } : AppState).entries = [] →
      ({ sW with entries := ["a.txt"] } : AppState).selected_index = 0) :=
  ⟨by decide, by decide, by decide, by decide,
    (selection_index_invariant fsW [] sW
      [⟨KeyCode.down, false⟩, ⟨KeyCode.char 'd', false⟩,
        ⟨KeyCode.char 'y', false⟩, ⟨KeyCode.enter, false⟩]
      (Fs.mk [([], EntryKind.dir), (["a.txt"], EntryKind.file "hi")])
      { sW with entries := ["a.txt"] }
      (by decide) (by decide) (by decide) (by decide)).1,
    (selection_index_invariant fsW [] sW
      [⟨KeyCode.down, false⟩, ⟨KeyCode.char 'd', false⟩,
        ⟨KeyCode.char 'y', false⟩, ⟨KeyCode.enter, false⟩]
      (Fs.mk [([], EntryKind.dir), (["a.txt"], EntryKind.file "hi")])
      { sW with entries := ["a.txt"] }
      (by decide) (by decide) (by decide) (by decide)).2⟩

end QuickFind
